import Mathlib

/-!
Verification of the sudoku_solver repository (Rust) against its specification.

The development shallowly embeds the relevant Rust code:

* cell masks (`Bits = usize`/`u32` bitmasks) become `Nat` with explicit bitwise
  operations; `count_ones` becomes `popcount`;
* the mutable `Board` struct becomes a Lean structure, mutation becomes
  explicit state passing;
* functions returning `Result<_, Contradiction>` become `Option`-valued
  functions (`none` = contradiction), `Result<_, SudokuErrors>` becomes
  `Except SudokuErrors`;
* loops become fuel-indexed structural recursion; the fuel is instantiated
  with canonical amounts where a total function is needed.

Sources: src/sudoku_engine/src/board.rs, src/sudoku_engine/src/types/board.rs,
src/sudoku_engine/src/constraints.rs, src/sudoku_engine/src/lib.rs,
src/solution_iter/src/lib.rs, src/listener/src/requests.rs,
src/f_puzzles/src/lib.rs, src/yy_engine/src/lib.rs.
-/

/-! ### Bit counting (Rust `count_ones` on machine integers) -/

/-- Fuel-indexed population count; `popcountFuel fuel n` is exact when `n ≤ fuel`. -/
def popcountFuel : Nat → Nat → Nat
  | 0, _ => 0
  | fuel + 1, n => if n = 0 then 0 else n % 2 + popcountFuel fuel (n / 2)

/-- Population count of a natural number: the model of Rust `count_ones`. -/
def popcount (n : Nat) : Nat := popcountFuel n n

theorem popcountFuel_congr (n : Nat) : ∀ f1 f2 : Nat, n ≤ f1 → n ≤ f2 →
    popcountFuel f1 n = popcountFuel f2 n := by
  induction n using Nat.strong_induction_on with
  | _ n ih =>
    intro f1 f2 h1 h2
    match n, f1, f2, h1, h2 with
    | 0, 0, 0, _, _ => rfl
    | 0, 0, _ + 1, _, _ => simp [popcountFuel]
    | 0, _ + 1, 0, _, _ => simp [popcountFuel]
    | 0, _ + 1, _ + 1, _, _ => simp [popcountFuel]
    | m + 1, a + 1, b + 1, h1, h2 =>
      show (if m + 1 = 0 then 0 else (m+1) % 2 + popcountFuel a ((m+1) / 2))
         = (if m + 1 = 0 then 0 else (m+1) % 2 + popcountFuel b ((m+1) / 2))
      rw [if_neg (Nat.succ_ne_zero m), if_neg (Nat.succ_ne_zero m)]
      have hd : (m + 1) / 2 < m + 1 := Nat.div_lt_self (Nat.succ_pos m) one_lt_two
      rw [ih ((m+1)/2) hd a b (by omega) (by omega)]

/-- Unfolding equation for `popcount`. -/
theorem popcount_eq (n : Nat) : popcount n = if n = 0 then 0 else n % 2 + popcount (n / 2) := by
  match n with
  | 0 => rfl
  | m + 1 =>
    show popcountFuel (m+1) (m+1) = _
    rw [if_neg (Nat.succ_ne_zero m)]
    show (if m + 1 = 0 then 0 else (m+1) % 2 + popcountFuel m ((m+1) / 2)) = _
    rw [if_neg (Nat.succ_ne_zero m)]
    have hd : (m + 1) / 2 < m + 1 := Nat.div_lt_self (Nat.succ_pos m) one_lt_two
    rw [popcountFuel_congr ((m+1)/2) m ((m+1)/2) (by omega) (le_refl _)]
    rfl

theorem popcount_zero : popcount 0 = 0 := rfl

theorem popcount_eq_zero {n : Nat} : popcount n = 0 ↔ n = 0 := by
  constructor
  · intro h
    induction n using Nat.strong_induction_on with
    | _ n ih =>
      by_contra hne
      rw [popcount_eq, if_neg hne] at h
      have hdiv : popcount (n / 2) = 0 := by omega
      have hmod : n % 2 = 0 := by omega
      have hlt : n / 2 < n := Nat.div_lt_self (Nat.pos_of_ne_zero hne) one_lt_two
      have hz := ih (n / 2) hlt hdiv
      omega
  · intro h
    subst h
    rfl

theorem popcount_pos {n : Nat} (h : n ≠ 0) : 1 ≤ popcount n := by
  rcases Nat.eq_zero_or_pos (popcount n) with h0 | h1
  · exact absurd (popcount_eq_zero.mp h0) h
  · exact h1

theorem or_eq_zero_iff_nat {a b : Nat} : a ||| b = 0 ↔ a = 0 ∧ b = 0 := by
  constructor
  · intro h
    constructor
    · apply Nat.eq_of_testBit_eq
      intro i
      have hz := congrArg (fun x => Nat.testBit x i) h
      simp only [Nat.testBit_or, Nat.zero_testBit] at hz
      simp only [Nat.zero_testBit]
      rcases hA : a.testBit i <;> simp_all
    · apply Nat.eq_of_testBit_eq
      intro i
      have hz := congrArg (fun x => Nat.testBit x i) h
      simp only [Nat.testBit_or, Nat.zero_testBit] at hz
      simp only [Nat.zero_testBit]
      rcases hB : b.testBit i <;> simp_all
  · intro h
    rw [h.1, h.2]
    rfl

/-- Population count distributes over bitwise and/or. -/
theorem popcount_and_add_or : ∀ fuel a b : Nat, a + b ≤ fuel →
    popcount (a &&& b) + popcount (a ||| b) = popcount a + popcount b := by
  intro fuel
  induction fuel with
  | zero =>
    intro a b h
    have ha : a = 0 := by omega
    have hb : b = 0 := by omega
    subst ha; subst hb
    rfl
  | succ f ih =>
    intro a b h
    by_cases ha : a = 0
    · subst ha
      rw [Nat.zero_and, Nat.zero_or]
    by_cases hb : b = 0
    · subst hb
      rw [Nat.and_zero, Nat.or_zero, popcount_zero]
      omega
    have hor : a ||| b ≠ 0 := by
      intro hc
      exact ha (or_eq_zero_iff_nat.mp hc).1
    have hrec : a / 2 + b / 2 ≤ f := by
      have h2 : a / 2 < a := Nat.div_lt_self (Nat.pos_of_ne_zero ha) one_lt_two
      have h3 : b / 2 < b := Nat.div_lt_self (Nat.pos_of_ne_zero hb) one_lt_two
      omega
    have hmain := ih (a / 2) (b / 2) hrec
    have hmod : (a &&& b) % 2 + (a ||| b) % 2 = a % 2 + b % 2 := by
      have hC : ((a &&& b) % 2 = 1) ↔ (a % 2 = 1 ∧ b % 2 = 1) := Nat.and_mod_two_eq_one
      have hD : ((a ||| b) % 2 = 1) ↔ (a % 2 = 1 ∨ b % 2 = 1) := Nat.or_mod_two_eq_one
      have e1 := Nat.mod_two_eq_zero_or_one (a &&& b)
      have e2 := Nat.mod_two_eq_zero_or_one (a ||| b)
      have e3 := Nat.mod_two_eq_zero_or_one a
      have e4 := Nat.mod_two_eq_zero_or_one b
      omega
    rw [popcount_eq (a &&& b), popcount_eq (a ||| b), popcount_eq a, popcount_eq b]
    rw [if_neg ha, if_neg hb, if_neg hor]
    rw [Nat.and_div_two, Nat.or_div_two]
    by_cases hand : a &&& b = 0
    · rw [if_pos hand]
      have handd : a / 2 &&& b / 2 = 0 := by
        rw [← Nat.and_div_two, hand]
      have handm : (a &&& b) % 2 = 0 := by rw [hand]
      rw [handd, popcount_zero] at hmain
      omega
    · rw [if_neg hand]
      omega

theorem popcount_or_of_and_zero {a b : Nat} (h : a &&& b = 0) :
    popcount (a ||| b) = popcount a + popcount b := by
  have hm := popcount_and_add_or (a + b) a b (le_refl _)
  rw [h, popcount_zero] at hm
  omega

theorem or_eq_of_submask {a b : Nat} (h : a &&& b = a) : a ||| b = b := by
  apply Nat.eq_of_testBit_eq
  intro i
  rw [Nat.testBit_or]
  have hbit := congrArg (fun x => Nat.testBit x i) h
  simp only [Nat.testBit_and] at hbit
  rcases hA : a.testBit i <;> rcases hB : b.testBit i <;> simp_all

/-- `a & !b` on machine words: the bits of `a` not in `b`.  Written with
`^^^`/`&&&` (kernel-accelerated) rather than `Nat.ldiff`, whose `Nat.bitwise`
definition does not reduce on concrete input. -/
def natLdiff (g v : Nat) : Nat := g ^^^ (g &&& v)

theorem natLdiff_testBit (g v i : Nat) :
    (natLdiff g v).testBit i = (g.testBit i && !(v.testBit i)) := by
  unfold natLdiff
  rw [Nat.testBit_xor, Nat.testBit_and]
  cases hg : g.testBit i <;> cases hv : v.testBit i <;> rfl

theorem ldiff_submask (g v : Nat) : natLdiff g v &&& g = natLdiff g v := by
  apply Nat.eq_of_testBit_eq
  intro i
  rw [Nat.testBit_and, natLdiff_testBit]
  rcases hA : g.testBit i <;> rcases hB : v.testBit i <;> simp

theorem ldiff_and_zero (g v : Nat) : natLdiff g v &&& v = 0 := by
  apply Nat.eq_of_testBit_eq
  intro i
  rw [Nat.testBit_and, natLdiff_testBit, Nat.zero_testBit]
  rcases hA : g.testBit i <;> rcases hB : v.testBit i <;> simp

theorem ldiff_or_and (b a : Nat) (h : a &&& b = a) : natLdiff b a ||| a = b := by
  apply Nat.eq_of_testBit_eq
  intro i
  rw [Nat.testBit_or, natLdiff_testBit]
  have hbit := congrArg (fun x => Nat.testBit x i) h
  simp only [Nat.testBit_and] at hbit
  rcases hA : a.testBit i <;> rcases hB : b.testBit i <;> simp_all

/-- A submask has no more set bits. -/
theorem popcount_le_of_submask {a b : Nat} (h : a &&& b = a) : popcount a ≤ popcount b := by
  have hsum := popcount_or_of_and_zero (ldiff_and_zero b a)
  rw [ldiff_or_and b a h] at hsum
  omega

/-- A strict submask has strictly fewer set bits. -/
theorem popcount_lt_of_submask_ne {a b : Nat} (h : a &&& b = a) (hne : a ≠ b) :
    popcount a < popcount b := by
  have hcover : natLdiff b a ||| a = b := ldiff_or_and b a h
  have hsum := popcount_or_of_and_zero (ldiff_and_zero b a)
  rw [hcover] at hsum
  have hldne : natLdiff b a ≠ 0 := by
    intro hz
    apply hne
    rw [hz, Nat.zero_or] at hcover
    exact hcover
  have := popcount_pos hldne
  omega

theorem popcount_two_pow (k : Nat) : popcount (2 ^ k) = 1 := by
  induction k with
  | zero => rfl
  | succ m ih =>
    rw [popcount_eq]
    have hne : 2 ^ (m + 1) ≠ 0 := by positivity
    rw [if_neg hne]
    have hmod : 2 ^ (m + 1) % 2 = 0 := by
      rw [pow_succ]
      omega
    have hdiv : 2 ^ (m + 1) / 2 = 2 ^ m := by
      rw [pow_succ]
      omega
    rw [hmod, hdiv, ih]

/-- Submask transfer: if `a₂ ⊆ a` (as bit sets) and `a` misses mask `v`, so does `a₂`. -/
theorem and_zero_of_submask {a2 a v : Nat} (hsub : a2 &&& a = a2) (h : a &&& v = 0) :
    a2 &&& v = 0 := by
  calc a2 &&& v = (a2 &&& a) &&& v := by rw [hsub]
    _ = a2 &&& (a &&& v) := Nat.and_assoc _ _ _
    _ = a2 &&& 0 := by rw [h]
    _ = 0 := Nat.and_zero _

/-! ### The elimination lattice

From src/sudoku_engine/src/types/board.rs (`enum Elimination` and its
`BitAnd`/`BitAndAssign` impls): `Eliminated` is absorbing, `Same` is neutral. -/

inductive Elimination where
  | Eliminated : Elimination
  | Same : Elimination
deriving DecidableEq

/-- `a.band r` models `a & r` / `a &= r` on `Elimination`. -/
def Elimination.band : Elimination → Elimination → Elimination
  | .Eliminated, _ => .Eliminated
  | .Same, r => r

theorem Elimination.band_same (e : Elimination) : e.band .Same = e := by
  cases e <;> rfl

theorem Elimination.band_eq_eliminated {a b : Elimination} :
    a.band b = .Eliminated ↔ a = .Eliminated ∨ b = .Eliminated := by
  cases a <;> cases b <;> simp [Elimination.band]

/-! ### `eliminate`

From src/sudoku_engine/src/types/board.rs lines 336-353 (the same logic is the
free function `types::eliminate` called by `Board::eliminate` in
src/sudoku_engine/src/board.rs lines 287-293).  Rust's
`self.grid[idx] &= value.not()` on a machine word equals `natLdiff` of the
stored mask and `value`, since the stored mask only has bits below the word
width.  A `Contradiction` return becomes `none`. -/

def eliminate (idx value : Nat) (grid : List Nat) : Option (Elimination × List Nat) :=
  let g := grid.getD idx 0
  if g &&& value = 0 then some (.Same, grid)
  else
    let g2 := natLdiff g value
    if g2 = 0 then none
    else some (.Eliminated, grid.set idx g2)

/-! ### Helper lemmas about list updates -/

theorem getD_set_self {l : List Nat} {i : Nat} (h : i < l.length) (a : Nat) :
    (l.set i a).getD i 0 = a := by
  rw [List.getD_eq_getElem?_getD, List.getElem?_set_self h]
  rfl

theorem getD_set_ne {l : List Nat} {i k : Nat} (h : k ≠ i) (a : Nat) :
    (l.set i a).getD k 0 = l.getD k 0 := by
  rw [List.getD_eq_getElem?_getD, List.getElem?_set_ne (fun he => h he.symm),
    ← List.getD_eq_getElem?_getD]

theorem getD_set_self_gen {α : Type} {l : List α} {i : Nat} (h : i < l.length) (a d : α) :
    (l.set i a).getD i d = a := by
  rw [List.getD_eq_getElem?_getD, List.getElem?_set_self h]
  rfl

theorem getD_set_ne_gen {α : Type} {l : List α} {i k : Nat} (h : k ≠ i) (a d : α) :
    (l.set i a).getD k d = l.getD k d := by
  rw [List.getD_eq_getElem?_getD, List.getElem?_set_ne (fun he => h he.symm),
    ← List.getD_eq_getElem?_getD]

theorem getD_lt_length {l : List Nat} {i : Nat} (h : l.getD i 0 ≠ 0) : i < l.length := by
  by_contra hc
  apply h
  rw [List.getD_eq_getElem?_getD, List.getElem?_eq_none (by omega)]
  rfl

/-! ### Pointwise submask order on grids -/

/-- `GridLE g2 g`: same length, and each cell of `g2` is a bit-submask of the
corresponding cell of `g`.  Every mutation performed by the elimination
cascade only shrinks cells, which this order captures. -/
def GridLE (g2 g : List Nat) : Prop :=
  g2.length = g.length ∧ ∀ k, g2.getD k 0 &&& g.getD k 0 = g2.getD k 0

theorem GridLE_refl (g : List Nat) : GridLE g g := by
  refine ⟨rfl, fun k => ?_⟩
  apply Nat.eq_of_testBit_eq
  intro i
  rw [Nat.testBit_and]
  rcases h : (g.getD k 0).testBit i <;> simp

theorem GridLE_trans {g3 g2 g : List Nat} (h32 : GridLE g3 g2) (h21 : GridLE g2 g) :
    GridLE g3 g := by
  refine ⟨h32.1.trans h21.1, fun k => ?_⟩
  have ha := h32.2 k
  have hb := h21.2 k
  apply Nat.eq_of_testBit_eq
  intro i
  have ha' := congrArg (fun x => Nat.testBit x i) ha
  have hb' := congrArg (fun x => Nat.testBit x i) hb
  simp only [Nat.testBit_and] at ha' hb'
  rw [Nat.testBit_and]
  rcases h3 : (g3.getD k 0).testBit i <;> rcases h2 : (g2.getD k 0).testBit i <;>
    rcases h1 : (g.getD k 0).testBit i <;> simp_all

theorem GridLE.and_zero {g2 g : List Nat} (h : GridLE g2 g) {k v : Nat}
    (hz : g.getD k 0 &&& v = 0) : g2.getD k 0 &&& v = 0 :=
  and_zero_of_submask (h.2 k) hz

/-- Total number of set bits in a grid; the measure that the whole deduction
cascade strictly decreases whenever it reports `Eliminated`. -/
def totalBits (g : List Nat) : Nat := (g.map popcount).sum

theorem totalBits_set_le {g : List Nat} {i v : Nat} (hle : popcount v ≤ popcount (g.getD i 0)) :
    totalBits (g.set i v) ≤ totalBits g := by
  induction g generalizing i with
  | nil => simp [totalBits]
  | cons x xs ih =>
    match i with
    | 0 =>
      simp only [List.getD_cons_zero] at hle
      simp only [List.set, totalBits, List.map, List.sum_cons]
      omega
    | k + 1 =>
      simp only [List.getD_cons_succ] at hle
      have := ih hle
      simp only [List.set, totalBits, List.map, List.sum_cons] at *
      omega

theorem totalBits_set_lt {g : List Nat} {i v : Nat} (hi : i < g.length)
    (hlt : popcount v < popcount (g.getD i 0)) :
    totalBits (g.set i v) < totalBits g := by
  induction g generalizing i with
  | nil => simp at hi
  | cons x xs ih =>
    match i with
    | 0 =>
      simp only [List.getD_cons_zero] at hlt
      simp only [List.set, totalBits, List.map, List.sum_cons]
      omega
    | k + 1 =>
      simp only [List.getD_cons_succ] at hlt
      simp only [List.length_cons] at hi
      have := ih (by omega) hlt
      simp only [List.set, totalBits, List.map, List.sum_cons] at *
      omega

/-! ### Basic properties of `eliminate` -/

theorem eliminate_grid_le {idx value : Nat} {g : List Nat} {e : Elimination} {g2 : List Nat}
    (h : eliminate idx value g = some (e, g2)) : GridLE g2 g := by
  unfold eliminate at h
  by_cases h0 : g.getD idx 0 &&& value = 0
  · rw [if_pos h0] at h
    simp only [Option.some.injEq, Prod.mk.injEq] at h
    rw [← h.2]
    exact GridLE_refl g
  · rw [if_neg h0] at h
    by_cases hz : natLdiff (g.getD idx 0) value = 0
    · rw [if_pos hz] at h
      simp at h
    · rw [if_neg hz] at h
      simp only [Option.some.injEq, Prod.mk.injEq] at h
      rw [← h.2]
      have hidx : idx < g.length := getD_lt_length (fun hc => h0 (by rw [hc, Nat.zero_and]))
      refine ⟨List.length_set .., fun k => ?_⟩
      by_cases hk : k = idx
      · subst hk
        rw [getD_set_self hidx]
        exact ldiff_submask _ _
      · rw [getD_set_ne hk]
        apply Nat.eq_of_testBit_eq
        intro i
        rw [Nat.testBit_and]
        rcases hb : (g.getD k 0).testBit i <;> simp

theorem eliminate_untouched {idx value : Nat} {g : List Nat} {e : Elimination} {g2 : List Nat}
    (h : eliminate idx value g = some (e, g2)) {k : Nat} (hk : k ≠ idx) :
    g2.getD k 0 = g.getD k 0 := by
  unfold eliminate at h
  by_cases h0 : g.getD idx 0 &&& value = 0
  · rw [if_pos h0] at h
    simp only [Option.some.injEq, Prod.mk.injEq] at h
    rw [← h.2]
  · rw [if_neg h0] at h
    by_cases hz : natLdiff (g.getD idx 0) value = 0
    · rw [if_pos hz] at h
      simp at h
    · rw [if_neg hz] at h
      simp only [Option.some.injEq, Prod.mk.injEq] at h
      rw [← h.2, getD_set_ne hk]

theorem eliminate_clears {idx value : Nat} {g : List Nat} {e : Elimination} {g2 : List Nat}
    (h : eliminate idx value g = some (e, g2)) : g2.getD idx 0 &&& value = 0 := by
  unfold eliminate at h
  by_cases h0 : g.getD idx 0 &&& value = 0
  · rw [if_pos h0] at h
    simp only [Option.some.injEq, Prod.mk.injEq] at h
    rw [← h.2]
    exact h0
  · rw [if_neg h0] at h
    by_cases hz : natLdiff (g.getD idx 0) value = 0
    · rw [if_pos hz] at h
      simp at h
    · rw [if_neg hz] at h
      simp only [Option.some.injEq, Prod.mk.injEq] at h
      rw [← h.2]
      have hidx : idx < g.length := getD_lt_length (fun hc => h0 (by rw [hc, Nat.zero_and]))
      rw [getD_set_self hidx]
      exact ldiff_and_zero _ _

theorem eliminate_same {idx value : Nat} {g : List Nat} {g2 : List Nat}
    (h : eliminate idx value g = some (.Same, g2)) :
    g2 = g ∧ g.getD idx 0 &&& value = 0 := by
  unfold eliminate at h
  by_cases h0 : g.getD idx 0 &&& value = 0
  · rw [if_pos h0] at h
    simp only [Option.some.injEq, Prod.mk.injEq] at h
    exact ⟨h.2.symm, h0⟩
  · rw [if_neg h0] at h
    by_cases hz : natLdiff (g.getD idx 0) value = 0
    · rw [if_pos hz] at h
      simp at h
    · rw [if_neg hz] at h
      simp at h

theorem eliminate_eliminated_bits {idx value : Nat} {g : List Nat} {g2 : List Nat}
    (h : eliminate idx value g = some (.Eliminated, g2)) : totalBits g2 < totalBits g := by
  unfold eliminate at h
  by_cases h0 : g.getD idx 0 &&& value = 0
  · rw [if_pos h0] at h
    simp at h
  · rw [if_neg h0] at h
    by_cases hz : natLdiff (g.getD idx 0) value = 0
    · rw [if_pos hz] at h
      simp at h
    · rw [if_neg hz] at h
      simp only [Option.some.injEq, Prod.mk.injEq] at h
      rw [← h.2]
      have hidx : idx < g.length := getD_lt_length (fun hc => h0 (by rw [hc, Nat.zero_and]))
      apply totalBits_set_lt hidx
      apply popcount_lt_of_submask_ne (ldiff_submask _ _)
      intro he
      apply h0
      have := ldiff_and_zero (g.getD idx 0) value
      rw [he] at this
      exact this

theorem eliminate_bits_le {idx value : Nat} {g : List Nat} {e : Elimination} {g2 : List Nat}
    (h : eliminate idx value g = some (e, g2)) : totalBits g2 ≤ totalBits g := by
  cases e with
  | Same => rw [(eliminate_same h).1]
  | Eliminated => exact le_of_lt (eliminate_eliminated_bits h)

/-! ### Constraints

From src/sudoku_engine/src/constraints.rs and the `Constraint` enum of
src/sudoku_engine/src/board.rs: `Quad(top-left index, single mask, double
mask)` and `Region(cell indices)`. -/

inductive Constraint where
  | Quad : Nat → Nat → Nat → Constraint
  | Region : List Nat → Constraint
deriving DecidableEq

/-- One step of the seen/seen-twice scan of `check_quad`
(src/sudoku_engine/src/constraints.rs lines 17-22): with `p = (seen,
seen_twice)`, Rust computes `add_to_mask = v - (v & seen_twice)`,
`seen_twice |= seen & v`, `seen ^= add_to_mask`. -/
def quadScanStep (v : Nat) (p : Nat × Nat) : Nat × Nat :=
  (p.1 ^^^ (v - (v &&& p.2)), p.2 ||| (p.1 &&& v))

/-- src/sudoku_engine/src/constraints.rs lines 6-24. -/
def check_quad (idx single double size : Nat) (grid : List Nat) : Bool :=
  let indices := [idx, idx + 1, idx + size, idx + size + 1]
  let p := indices.foldl (fun p i => quadScanStep (grid.getD i 0) p) (0, 0)
  ((p.1 ||| p.2) &&& single == single) && (p.2 &&& double == double)

/-- One step of the mask/double-mask/count scan shared by `init_quad` and
`quad_enforce_consistency` (constraints.rs lines 39-49 and 94-104); cells with
no bit of `single ||| double` are skipped and not counted. -/
def quadCountStep (sd v : Nat) (p : Nat × Nat × Nat) : Nat × Nat × Nat :=
  if v &&& sd = 0 then p
  else (p.1 ^^^ (v - (v &&& p.2.1)), p.2.1 ||| (p.1 &&& v), p.2.2 + 1)

/-- src/sudoku_engine/src/constraints.rs lines 77-117.  Returns `none` for a
`Contradiction`; never mutates the grid. -/
def quad_enforce_consistency (idx quad_idx single double size : Nat)
    (grid : List Nat) : Option Elimination :=
  let indices := [quad_idx, quad_idx + 1, quad_idx + size, quad_idx + size + 1]
  if idx ∈ indices then
    let p := indices.foldl (fun p i => quadCountStep (single ||| double) (grid.getD i 0) p)
      (0, 0, 0)
    let needed := popcount single + 2 * popcount double
    if needed > p.2.2 then none
    else if ((p.1 ||| p.2.1) &&& single == single) && (p.2.1 &&& double == double) then
      some .Same
    else none
  else some .Same

/-- The final elimination loop of `init_quad` (constraints.rs lines 67-74):
for every kept cell, eliminate `grid[i] - (grid[i] & (single | double))`,
reading the live grid. -/
def initQuadElim (sd : Nat) : List Nat → Elimination → List Nat →
    Option (Elimination × List Nat)
  | [], e, g => some (e, g)
  | i :: rest, e, g =>
    match eliminate i (g.getD i 0 - (g.getD i 0 &&& sd)) g with
    | none => none
    | some (e2, g2) => initQuadElim sd rest (e.band e2) g2

/-- src/sudoku_engine/src/constraints.rs lines 26-75.  The Rust code marks
skipped indices with a `usize::MAX` sentinel in a local copy of the index
array; the model filters them out instead, which skips the same cells. -/
def init_quad (idx single double size : Nat) (grid : List Nat) :
    Option (Elimination × List Nat) :=
  let indices := [idx, idx + 1, idx + size, idx + size + 1]
  let kept := indices.filter (fun i => grid.getD i 0 &&& (single ||| double) != 0)
  let p := kept.foldl (fun p i => quadCountStep (single ||| double) (grid.getD i 0) p) (0, 0, 0)
  let needed := popcount single + 2 * popcount double
  if needed > p.2.2 then none
  else if ¬(((p.1 ||| p.2.1) &&& single == single) && (p.2.1 &&& double == double) = true) then none
  else if needed < p.2.2 then some (.Same, grid)
  else initQuadElim (single ||| double) kept .Same grid

/-! ### The elimination loops of `Board::assign` -/

/-- `for i in unit { if *i == idx { continue; } ret &= self.eliminate(*i, value)?; }`
(src/sudoku_engine/src/board.rs lines 241-253). -/
def elimLoop (value idx : Nat) : List Nat → Elimination → List Nat →
    Option (Elimination × List Nat)
  | [], e, g => some (e, g)
  | c :: rest, e, g =>
    if c = idx then elimLoop value idx rest e g
    else match eliminate c value g with
      | none => none
      | some (e2, g2) => elimLoop value idx rest (e.band e2) g2

/-- `for region in &meta.regions { if region.contains(&idx) { ...; break; } }`
(src/sudoku_engine/src/board.rs lines 255-265): only the first region
containing `idx` is processed. -/
def regionElim (value idx : Nat) : List (List Nat) → Elimination → List Nat →
    Option (Elimination × List Nat)
  | [], e, g => some (e, g)
  | r :: rest, e, g =>
    if idx ∈ r then elimLoop value idx r e g
    else regionElim value idx rest e g

/-- Modelled from the spec: the function `constraints::region_enforce_consistency`
called by `Board::assign` (src/sudoku_engine/src/board.rs lines 329-331) is not
part of the provided sources.  Per spec section 4.4.4, a `Region(cells)`
constraint is "enforced implicitly by the peer-elimination loop": on an
assignment inside the region, the assigned value is eliminated from every
other cell of the region. -/
def region_enforce_consistency (idx value : Nat) (region : List Nat)
    (grid : List Nat) : Option (Elimination × List Nat) :=
  if idx ∈ region then elimLoop value idx region .Same grid
  else some (.Same, grid)

/-- `for c in &meta.constraints { ret &= self.enforce_constraint_consistency(c, idx, value)?; }`
(src/sudoku_engine/src/board.rs lines 267-269 and 314-333). -/
def constraintsLoop (idx value size : Nat) : List Constraint → Elimination → List Nat →
    Option (Elimination × List Nat)
  | [], e, g => some (e, g)
  | .Quad q s d :: rest, e, g =>
    match quad_enforce_consistency idx q s d size g with
    | none => none
    | some e2 => constraintsLoop idx value size rest (e.band e2) g
  | .Region r :: rest, e, g =>
    match region_enforce_consistency idx value r g with
    | none => none
    | some (e2, g2) => constraintsLoop idx value size rest (e.band e2) g2

/-! ### The board -/

/-- src/sudoku_engine/src/board.rs `BoardMeta` (shared, immutable). -/
structure BoardMeta where
  size : Nat
  maxVal : Nat
  rows : List (List Nat)
  columns : List (List Nat)
  regions : List (List Nat)
  constraints : List Constraint
deriving DecidableEq

/-- src/sudoku_engine/src/board.rs `Board`: the solved-cell bitset (`MoreBits`)
becomes a boolean list, the `Arc<BoardMeta>` becomes a plain value. -/
structure Board where
  usedDigits : Nat
  solvedDigits : List Bool
  grid : List Nat
  meta : BoardMeta
deriving DecidableEq

/-- Phase 2 of `Board::assign` (src/sudoku_engine/src/board.rs lines 236-271):
eliminate the value from the row, the column, the first region containing
`idx`, then run every constraint's consistency check; `row = idx / size`,
`column = idx - size * row`. -/
def assignPipeline (bp : Board) (idx value : Nat) : Option (Elimination × Board) :=
  match elimLoop value idx (bp.meta.rows.getD (idx / bp.meta.size) []) .Same bp.grid with
  | none => none
  | some (e1, g1) =>
    match elimLoop value idx
        (bp.meta.columns.getD (idx - bp.meta.size * (idx / bp.meta.size)) []) e1 g1 with
    | none => none
    | some (e2, g2) =>
      match regionElim value idx bp.meta.regions e2 g2 with
      | none => none
      | some (e3, g3) =>
        match constraintsLoop idx value bp.meta.size bp.meta.constraints e3 g3 with
        | none => none
        | some (e4, g4) => some (e4, { bp with grid := g4 })

/-- `Board::assign` (src/sudoku_engine/src/board.rs lines 222-272), release
semantics (the `debug_assert!`s are compiled out).  Phase 1 places the digit,
marks it solved and checks the used-digit count; phase 2 is
`assignPipeline`.  `none` models a `Contradiction` return. -/
def Board.assign (b : Board) (idx value : Nat) : Option (Elimination × Board) :=
  if b.solvedDigits.getD idx false then assignPipeline b idx value
  else
    let b2 : Board :=
      { b with grid := b.grid.set idx value,
               solvedDigits := b.solvedDigits.set idx true,
               usedDigits := b.usedDigits ||| value }
    if popcount b2.usedDigits > b2.meta.size then none
    else assignPipeline b2 idx value

/-- `Board::possible_value` / `Solvable::possibility` for `Board`
(src/sudoku_engine/src/board.rs lines 205-208 and 820-822). -/
def Board.possibility (b : Board) (idx g : Nat) : Bool :=
  b.grid.getD idx 0 &&& g != 0

/-- `Board::to_bits` (src/sudoku_engine/src/board.rs lines 195-201). -/
def Board.to_bits (b : Board) (value : Nat) : Option Nat :=
  if value > b.meta.maxVal then none else some (1 <<< value)

/-- The digits `1..=max_val`, the iteration range of several loops. -/
def digitList (maxVal : Nat) : List Nat := (List.range maxVal).map (· + 1)

/-- `Board::iter_ones` (src/sudoku_engine/src/board.rs lines 155-165): the
digits `1..=max_val` whose bit is set in cell `idx`, in increasing order. -/
def Board.iter_ones (b : Board) (idx : Nat) : List Nat :=
  (digitList b.meta.maxVal).filter (fun i => (1 <<< i) &&& b.grid.getD idx 0 != 0)

/-- The body of `Board::next_idx_to_guess` (src/sudoku_engine/src/board.rs
lines 530-544): scan all cells, skip single-candidate cells, keep the first
cell with the least candidate count. -/
def nigGo : List (Nat × Nat) → Nat → Option Nat → Option Nat
  | [], _, ret => ret
  | (i, d) :: rest, count, ret =>
    if popcount d = 1 then nigGo rest count ret
    else if popcount d < count then nigGo rest (popcount d) (some i)
    else nigGo rest count ret

def Board.next_idx_to_guess (b : Board) : Option Nat :=
  nigGo b.grid.enum (b.meta.size + 1) none

/-- Modelled from the spec: `constraints::check_region`, called by
`Board::check_constraint` (src/sudoku_engine/src/board.rs line 301), is not in
the provided sources.  Per spec section 4.4.4 a `Region(cells)` constraint
demands that each digit appear exactly once across the cells: every cell is a
settled singleton and the cells' digits are pairwise distinct. -/
def check_region (region : List Nat) (grid : List Nat) : Bool :=
  region.all (fun i => popcount (grid.getD i 0) == 1) &&
    popcount (region.foldl (fun a i => a ||| grid.getD i 0) 0) == region.length

/-- `Board::check_constraint` (src/sudoku_engine/src/board.rs lines 296-303). -/
def check_constraint (c : Constraint) (b : Board) : Bool :=
  match c with
  | .Quad i s d => check_quad i s d b.meta.size b.grid
  | .Region r => check_region r b.grid

/-- `Board::solved` (src/sudoku_engine/src/board.rs lines 352-365). -/
def Board.solved (b : Board) : Bool :=
  (b.solvedDigits.count true == b.meta.size * b.meta.size) &&
    b.meta.constraints.all (fun c => check_constraint c b)

/-! ### Logical deductions -/

/-- The assignment fold of `Board::naked_singles`
(src/sudoku_engine/src/board.rs lines 382-384). -/
def nsGo : List (Nat × Nat) → Elimination → Board → Option (Elimination × Board)
  | [], e, b => some (e, b)
  | (i, d) :: rest, e, b =>
    match b.assign i d with
    | none => none
    | some (e2, b2) => nsGo rest (e.band e2) b2

/-- `Board::naked_singles` (src/sudoku_engine/src/board.rs lines 371-387):
snapshot all unsolved single-candidate cells, then assign each in turn. -/
def Board.naked_singles (b : Board) : Option (Elimination × Board) :=
  nsGo (b.grid.enum.filter
    (fun p => popcount p.2 == 1 && !(b.solvedDigits.getD p.1 false))) .Same b

/-- The digit loop of `Board::hidden_singles_helper`
(src/sudoku_engine/src/board.rs lines 392-407), including the re-check (lines
396-401) that the digit is still possible in the cached unique host.
`cells` is the snapshot taken at the start of the helper. -/
def hsDigitsGo : List Nat → List (Nat × Nat) → Elimination → Board →
    Option (Elimination × Board)
  | [], _, e, b => some (e, b)
  | d :: ds, cells, e, b =>
    let v := 1 <<< d
    match cells.filter (fun p => p.2 &&& v == v) with
    | [] => none
    | [(idx, _)] =>
      if b.grid.getD idx 0 &&& v = 0 then none
      else match b.assign idx v with
        | none => none
        | some (e2, b2) => hsDigitsGo ds cells (e.band e2) b2
    | _ :: _ :: _ => hsDigitsGo ds cells e b

/-- `Board::hidden_singles_helper` (src/sudoku_engine/src/board.rs lines 389-410). -/
def hsHelper (b : Board) (unit : List Nat) : Option (Elimination × Board) :=
  hsDigitsGo (digitList b.meta.maxVal) (unit.map (fun idx => (idx, b.grid.getD idx 0))) .Same b

/-- The unit fold of `Board::hidden_singles`. -/
def hsUnitsGo : List (List Nat) → Elimination → Board → Option (Elimination × Board)
  | [], e, b => some (e, b)
  | u :: us, e, b =>
    match hsHelper b u with
    | none => none
    | some (e2, b2) => hsUnitsGo us (e.band e2) b2

/-- `Board::get_additional_region_from_constraint`
(src/sudoku_engine/src/board.rs lines 335-349). -/
def additionalRegions (meta : BoardMeta) : List (List Nat) :=
  meta.constraints.filterMap (fun c =>
    match c with
    | .Quad _ _ _ => none
    | .Region r => if r.length = meta.size then some r else none)

/-- `Board::hidden_singles` (src/sudoku_engine/src/board.rs lines 416-438):
rows, columns, regions, then the additional constraint regions. -/
def Board.hidden_singles (b : Board) : Option (Elimination × Board) :=
  hsUnitsGo (b.meta.rows ++ b.meta.columns ++ b.meta.regions ++ additionalRegions b.meta) .Same b

/-- n-element combinations in lexicographic order, as produced by
itertools' `combinations` used in `Board::naked_tuple_helper`. -/
def combos : Nat → List Nat → List (List Nat)
  | 0, _ => [[]]
  | _ + 1, [] => []
  | n + 1, x :: xs => (combos n xs).map (fun c => x :: c) ++ combos (n + 1) xs

/-- The elimination loop for one found naked tuple
(src/sudoku_engine/src/board.rs lines 476-483): strip the tuple's digits from
every unit cell outside the tuple. -/
def ntElim (digits : Nat) (indices : List Nat) : List Nat → Elimination → List Nat →
    Option (Elimination × List Nat)
  | [], e, g => some (e, g)
  | i :: rest, e, g =>
    if i ∈ indices then ntElim digits indices rest e g
    else match eliminate i digits g with
      | none => none
      | some (e2, g2) => ntElim digits indices rest (e.band e2) g2

/-- The combination loop of `Board::naked_tuple_helper`
(src/sudoku_engine/src/board.rs lines 455-484), reading the live grid. -/
def ntCombosGo (n : Nat) (unit : List Nat) (solvedDigits : List Bool) :
    List (List Nat) → Elimination → List Nat → Option (Elimination × List Nat)
  | [], e, g => some (e, g)
  | vs :: rest, e, g =>
    let digits := vs.foldl (fun a v => a ||| (1 <<< v)) 0
    let indices := unit.filter (fun i =>
      !(solvedDigits.getD i false) && (g.getD i 0 &&& digits == g.getD i 0))
    if indices.length = n then
      match ntElim digits indices unit e g with
      | none => none
      | some (e2, g2) => ntCombosGo n unit solvedDigits rest e2 g2
    else ntCombosGo n unit solvedDigits rest e g

/-- `Board::naked_tuple_helper` (src/sudoku_engine/src/board.rs lines 440-487). -/
def ntHelper (n : Nat) (unit : List Nat) (b : Board) : Option (Elimination × Board) :=
  let used := unit.foldl (fun a i =>
    if popcount (b.grid.getD i 0) = 1 then a ||| b.grid.getD i 0 else a) 0
  let cands := (digitList b.meta.maxVal).filter (fun v => (1 <<< v) &&& used == 0)
  match ntCombosGo n unit b.solvedDigits (combos n cands) .Same b.grid with
  | none => none
  | some (e, g) => some (e, { b with grid := g })

/-- The unit fold of `Board::naked_tuples`. -/
def ntUnitsGo (n : Nat) : List (List Nat) → Elimination → Board →
    Option (Elimination × Board)
  | [], e, b => some (e, b)
  | u :: us, e, b =>
    match ntHelper n u b with
    | none => none
    | some (e2, b2) => ntUnitsGo n us (e.band e2) b2

/-- `Board::naked_tuples` (src/sudoku_engine/src/board.rs lines 494-516). -/
def Board.naked_tuples (n : Nat) (b : Board) : Option (Elimination × Board) :=
  ntUnitsGo n (b.meta.rows ++ b.meta.columns ++ b.meta.regions ++ additionalRegions b.meta) .Same b

/-! ### `deduce` -/

/-- `while self.naked_singles()? == Elimination::Eliminated {}`
(src/sudoku_engine/src/board.rs line 553), fuelled; every `Eliminated` round
strictly removes a candidate bit, so `totalBits + 1` rounds always reach the
fixed point. -/
def nsFixF : Nat → Board → Option Board
  | 0, _ => none
  | fuel + 1, b =>
    match b.naked_singles with
    | none => none
    | some (.Same, b2) => some b2
    | some (.Eliminated, b2) => nsFixF fuel b2

/-- The outer loop of `Board::deduce` (src/sudoku_engine/src/board.rs lines
551-578): naked singles to a fixed point, one pass of hidden singles,
restart while that pass eliminated something; when it did not, the source
runs `if self.solved() { break; } break;`, i.e. it exits either way (the
naked-tuples alternatives are commented out). -/
def deduceLoopF : Nat → Board → Option Board
  | 0, _ => none
  | fuel + 1, b =>
    match nsFixF (totalBits b.grid + 1) b with
    | none => none
    | some b1 =>
      match b1.hidden_singles with
      | none => none
      | some (.Eliminated, b2) => deduceLoopF fuel b2
      | some (.Same, b2) => some b2

/-- `Board::deduce` (src/sudoku_engine/src/board.rs lines 551-578) with its
canonical fuel: each restart strictly removes a candidate bit. -/
def Board.deduce (b : Board) : Option Board :=
  deduceLoopF (totalBits b.grid + 1) b

/-! ### Legacy engine (src/sudoku_engine/src/types/board.rs)

The repository also contains the earlier generation of the engine.  Its
`naked_singles` is identical to the current one; its `assign` iterates the
same row range, column range and first-containing region (computed
arithmetically instead of looked up in `meta`) and has no constraints, so on
a board whose meta holds the canonical rows/columns and no constraints — the
only boards the legacy module ever builds — it coincides with `Board.assign`
above, which the legacy definitions below therefore reuse.  Its
`hidden_singles_helper` (lines 383-403) lacks the current version's re-check
of the cached host cell, and its `deduce` (lines 521-539) additionally runs
`naked_tuples(2)`. -/

/-- `(r * size..(r + 1) * size)`: the row units built by the board
constructors and iterated by the legacy deductions. -/
def rowIndices (size r : Nat) : List Nat := (List.range size).map (fun c => r * size + c)

def canonicalRows (size : Nat) : List (List Nat) := (List.range size).map (rowIndices size)

/-- `(c..size * size).step_by(size)`: the column units. -/
def colIndices (size c : Nat) : List Nat := (List.range size).map (fun r => r * size + c)

def canonicalColumns (size : Nat) : List (List Nat) := (List.range size).map (colIndices size)

/-- Legacy `hidden_singles_helper` digit loop, without the host re-check. -/
def hsDigitsGoLegacy : List Nat → List (Nat × Nat) → Elimination → Board →
    Option (Elimination × Board)
  | [], _, e, b => some (e, b)
  | d :: ds, cells, e, b =>
    let v := 1 <<< d
    match cells.filter (fun p => p.2 &&& v == v) with
    | [] => none
    | [(idx, _)] =>
      match b.assign idx v with
      | none => none
      | some (e2, b2) => hsDigitsGoLegacy ds cells (e.band e2) b2
    | _ :: _ :: _ => hsDigitsGoLegacy ds cells e b

def hsHelperLegacy (b : Board) (unit : List Nat) : Option (Elimination × Board) :=
  hsDigitsGoLegacy (digitList b.meta.maxVal) (unit.map (fun idx => (idx, b.grid.getD idx 0)))
    .Same b

def hsUnitsGoLegacy : List (List Nat) → Elimination → Board → Option (Elimination × Board)
  | [], e, b => some (e, b)
  | u :: us, e, b =>
    match hsHelperLegacy b u with
    | none => none
    | some (e2, b2) => hsUnitsGoLegacy us (e.band e2) b2

/-- Legacy `Board::hidden_singles` (src/sudoku_engine/src/types/board.rs lines
409-427): rows, columns, regions. -/
def Board.hidden_singles_legacy (b : Board) : Option (Elimination × Board) :=
  hsUnitsGoLegacy (canonicalRows b.meta.size ++ canonicalColumns b.meta.size ++ b.meta.regions)
    .Same b

/-- Legacy `Board::naked_tuples` (src/sudoku_engine/src/types/board.rs lines
480-499): same helper, over rows, columns and regions only. -/
def Board.naked_tuples_legacy (n : Nat) (b : Board) : Option (Elimination × Board) :=
  ntUnitsGo n (canonicalRows b.meta.size ++ canonicalColumns b.meta.size ++ b.meta.regions)
    .Same b

/-- Legacy `Board::deduce` (src/sudoku_engine/src/types/board.rs lines
521-539): naked singles to a fixed point, one pass of hidden singles
(restart on elimination), then one pass of naked pairs (restart on
elimination), exit when neither eliminated. -/
def legacyDeduceLoopF : Nat → Board → Option Board
  | 0, _ => none
  | fuel + 1, b =>
    match nsFixF (totalBits b.grid + 1) b with
    | none => none
    | some b1 =>
      match b1.hidden_singles_legacy with
      | none => none
      | some (.Eliminated, b2) => legacyDeduceLoopF fuel b2
      | some (.Same, b2) =>
        match Board.naked_tuples_legacy 2 b2 with
        | none => none
        | some (.Eliminated, b3) => legacyDeduceLoopF fuel b3
        | some (.Same, b3) => some b3

def Board.deduce_legacy (b : Board) : Option Board :=
  legacyDeduceLoopF (totalBits b.grid + 1) b

/-! ### Board construction -/

inductive SudokuErrors where
  | MaxTooLarge : SudokuErrors
  | ValueTooLarge : SudokuErrors
  | OutOfBounds : SudokuErrors
  | Contradiction : SudokuErrors
  | BadSize : SudokuErrors
  | BadDigit : SudokuErrors
  | IrregularWrongSizes : SudokuErrors
  | BadRCEncoding : SudokuErrors
deriving DecidableEq

instance {ε α : Type} [DecidableEq ε] [DecidableEq α] : DecidableEq (Except ε α) :=
  fun a b =>
    match a, b with
    | .error e1, .error e2 =>
      if h : e1 = e2 then .isTrue (by rw [h]) else .isFalse (by intro hc; cases hc; exact h rfl)
    | .error _, .ok _ => .isFalse (by intro hc; cases hc)
    | .ok _, .error _ => .isFalse (by intro hc; cases hc)
    | .ok x, .ok y =>
      if h : x = y then .isTrue (by rw [h]) else .isFalse (by intro hc; cases hc; exact h rfl)

/-- The `DIMENSIONS` table (src/sudoku_engine/src/types/board.rs lines
102-119): `(width, height)` of the default region rectangle per size. -/
def DIMENSIONS : List (Nat × Nat) :=
  [(1,1), (2,1), (3,1), (2,2), (5,1), (3,2), (7,1), (4,2),
   (3,3), (5,2), (11,1), (4,3), (13,1), (7,2), (5,3), (4,4)]

/-- The cells of the default region with box coordinates `(by, bx)`
(src/sudoku_engine/src/board.rs lines 48-59). -/
def regionBox (size width height bY bX : Nat) : List Nat :=
  (List.range height).flatMap
    (fun y => (List.range width).map (fun x => (bY * height + y) * size + bX * width + x))

/-- `build_default_regions` (src/sudoku_engine/src/board.rs lines 36-62); the
boxes are produced in the order `ret[box_y * height + box_x]` in which the
source writes them. -/
def build_default_regions (size : Nat) : Except SudokuErrors (List (List Nat)) :=
  if size = 0 ∨ size > DIMENSIONS.length then .error .OutOfBounds
  else
    let p := DIMENSIONS.getD (size - 1) (0, 0)
    .ok ((List.range p.1).flatMap
      (fun bY => (List.range p.2).map (fun bX => regionBox size p.1 p.2 bY bX)))

/-- `Board::empty_cell` (src/sudoku_engine/src/board.rs lines 170-179):
all bits `1..=max_val` set; errors when `max_val` reaches the word width
(`usize::BITS = 64`). -/
def empty_cell (maxVal : Nat) : Except SudokuErrors Nat :=
  if 64 ≤ maxVal then .error .MaxTooLarge
  else .ok ((1 <<< (maxVal + 1)) - 2)

/-- One pass of the constraint-initialisation loop of
`Board::new_with_regions` (src/sudoku_engine/src/board.rs lines 125-130):
`init_status &= b.init_constraint(c)?` over all constraints
(`init_constraint` is `init_quad` for quads and `Same` for regions). -/
def initConstraintsPass (size : Nat) : List Constraint → Elimination → List Nat →
    Option (Elimination × List Nat)
  | [], e, g => some (e, g)
  | .Quad i s d :: rest, e, g =>
    match init_quad i s d size g with
    | none => none
    | some (e2, g2) => initConstraintsPass size rest (e.band e2) g2
  | .Region _ :: rest, e, g => initConstraintsPass size rest (e.band .Same) g

/-- `while init_status == Elimination::Eliminated { ... }`: repeat the pass
while it eliminated something. -/
def initConstraintsF (size : Nat) : Nat → List Constraint → List Nat → Option (List Nat)
  | 0, _, _ => none
  | fuel + 1, cs, g =>
    match initConstraintsPass size cs .Same g with
    | none => none
    | some (.Same, g2) => some g2
    | some (.Eliminated, g2) => initConstraintsF size fuel cs g2

/-- `Board::new_with_regions` (src/sudoku_engine/src/board.rs lines 85-133). -/
def Board.new_with_regions (size maxVal : Nat) (regions : List (List Nat))
    (constraints : List Constraint) : Except SudokuErrors Board :=
  if maxVal < size then .error .MaxTooLarge
  else
    match empty_cell maxVal with
    | .error e => .error e
    | .ok full =>
      let grid := List.replicate (size * size) full
      match initConstraintsF size (totalBits grid + 1) constraints grid with
      | none => .error .Contradiction
      | some g2 =>
        .ok { usedDigits := 0,
              solvedDigits := List.replicate (size * size) false,
              grid := g2,
              meta := { size := size, maxVal := maxVal,
                        rows := canonicalRows size,
                        columns := canonicalColumns size,
                        regions := regions, constraints := constraints } }

/-- `Board::new` (src/sudoku_engine/src/board.rs lines 73-75). -/
def Board.new (size maxVal : Nat) : Except SudokuErrors Board :=
  match build_default_regions size with
  | .error e => .error e
  | .ok regs => Board.new_with_regions size maxVal regs []

/-- The given-placement loop of `Board::from_digits`
(src/sudoku_engine/src/board.rs lines 143-150). -/
def fromDigitsGo : List (Option Nat) → Nat → Board → Except SudokuErrors Board
  | [], _, b => .ok b
  | none :: rest, i, b => fromDigitsGo rest (i + 1) b
  | some d :: rest, i, b =>
    if b.grid.getD i 0 &&& d = 0 then .error .Contradiction
    else
      match b.assign i d with
      | none => .error .Contradiction
      | some (_, b2) => fromDigitsGo rest (i + 1) b2

/-- `Board::from_digits` (src/sudoku_engine/src/board.rs lines 135-153). -/
def Board.from_digits (size maxVal : Nat) (digits : List (Option Nat)) :
    Except SudokuErrors Board :=
  match Board.new size maxVal with
  | .error e => .error e
  | .ok b => fromDigitsGo digits 0 b

/-! ### String parsing -/

/-- Rust `char::to_digit(radix)`. -/
def charToDigit (c : Char) (radix : Nat) : Option Nat :=
  let d :=
    if 48 ≤ c.toNat ∧ c.toNat ≤ 57 then some (c.toNat - 48)
    else if 97 ≤ c.toNat ∧ c.toNat ≤ 122 then some (c.toNat - 97 + 10)
    else if 65 ≤ c.toNat ∧ c.toNat ≤ 90 then some (c.toNat - 65 + 10)
    else none
  match d with
  | some d => if d < radix then some d else none
  | none => none

/-- Floor square root by downward scan (structurally recursive, so concrete
instances evaluate). -/
def natSqrtGo (n : Nat) : Nat → Nat
  | 0 => 0
  | k + 1 => if (k + 1) * (k + 1) ≤ n then k + 1 else natSqrtGo n k

/-- Floor square root: the largest `k ≤ n` with `k * k ≤ n`. -/
def natSqrt (n : Nat) : Nat := natSqrtGo n n

/-- `from_string` (src/sudoku_engine/src/lib.rs lines 17-42): hex digits
become single-bit givens (including the character `0`, which parses to digit
0, i.e. the unused bit 0), everything else becomes an empty cell; `max_val`
is the maximum of the size and all parsed digits.  The `f32::sqrt` cast is
the floor square root `natSqrt` here; both agree on the perfect squares
accepted by the length check. -/
def from_string (repr : List Char) : Except SudokuErrors Board :=
  let size := natSqrt repr.length
  if size * size ≠ repr.length then .error .BadSize
  else
    let digits := repr.map (fun c => (charToDigit c 16).map (fun d => 1 <<< d))
    let maxVal := repr.foldl
      (fun m c => match charToDigit c 16 with | some d => max m d | none => m) size
    Board.from_digits size maxVal digits

/-- Flattened result of `TryFrom<&str> for FPuzzles`
(src/f_puzzles/src/lib.rs lines 151-187): cell `i` of the returned grid has
`value = Some d` (and `given = true`) exactly for the characters parsed by
`to_digit(size + 1)`, while `.` and `0` leave the fresh cell empty. -/
def fpParseChar (size : Nat) (c : Char) : Except String (Option Nat) :=
  if c = '.' ∨ c = '0' then .ok none
  else
    match charToDigit c (size + 1) with
    | some d => .ok (some d)
    | none => .error "Invalid digit in string."

def fpParseGo (size : Nat) : List Char → Except String (List (Option Nat))
  | [] => .ok []
  | c :: rest =>
    match fpParseChar size c with
    | .error e => .error e
    | .ok v =>
      match fpParseGo size rest with
      | .error e => .error e
      | .ok vs => .ok (v :: vs)

/-- `FPuzzles::try_from(&str)` reduced to the data it populates: the flat
list of cell values. -/
def FPuzzles.try_from_str (repr : List Char) : Except String (List (Option Nat)) :=
  let size := natSqrt repr.length
  if size * size ≠ repr.length then
    .error "Length of digits isn't right for a square sudoku."
  else fpParseGo size repr

/-! ### `rc_to_idx` -/

def isDigitChar (c : Char) : Bool := 48 ≤ c.toNat && c.toNat ≤ 57

/-- Model of `str::parse::<usize>` restricted to plain ASCII digit strings.
(Rust additionally accepts one leading `+`, and rejects out-of-`u64` values;
neither affects the inputs reasoned about here: an overflowing digit string
parses here to a value `> size` and is rejected by the same bounds check
that rejects Rust's parse error.) -/
def parseNatDigits (s : List Char) : Option Nat :=
  if s ≠ [] ∧ s.all isDigitChar then
    some (s.foldl (fun a c => 10 * a + (c.toNat - 48)) 0)
  else none

def U64 : Nat := 2 ^ 64

/-- `rc_to_idx` (src/sudoku_engine/src/board.rs lines 686-711).  The final
`(y - 1) * size + (x - 1)` is `usize` arithmetic: in a release build it wraps
modulo `2^64` (in a debug build `y = 0` or `x = 0` panics on the
subtraction), which the explicit `% U64` reproduces. -/
def rc_to_idx (s : List Char) (size : Nat) : Except SudokuErrors Nat :=
  match s.findIdx? (fun c => c == 'C') with
  | none => .error .BadRCEncoding
  | some offset =>
    match s.take offset with
    | 'R' :: rowStr =>
      match (s.drop offset).drop 1 with
      | colStr =>
        match parseNatDigits colStr with
        | none => .error .BadRCEncoding
        | some x =>
          match parseNatDigits rowStr with
          | none => .error .BadRCEncoding
          | some y =>
            if x > size then .error .BadRCEncoding
            else if y > size then .error .BadRCEncoding
            else .ok ((((y + U64 - 1) % U64) * size + ((x + U64 - 1) % U64)) % U64)
    | _ => .error .BadRCEncoding

/-! ### Yin-Yang grid (src/yy_engine/src/lib.rs)

Only the constructor and the `Solvable::indices` binding are needed here.
The `StrengthReducedUsize` divisor field is a pure division optimisation and
is omitted. -/

structure YinYang where
  height : Nat
  width : Nat
  data : List Nat
  border : List Nat
deriving DecidableEq

/-- `(a..b).step_by(s)`. -/
def stepRange (a b s : Nat) : List Nat :=
  if s = 0 then []
  else (List.range ((b - a + s - 1) / s)).map (fun k => a + k * s)

/-- `(a..b)` ascending. -/
def rangeFromTo (a b : Nat) : List Nat := (List.range (b - a)).map (fun k => a + k)

/-- `YinYang::new` (src/yy_engine/src/lib.rs lines 95-117): data all-unknown
(`3`), border built from the four perimeter walks:
`0..width`, `(2*width-1..height*width).step_by(width)`,
`((height-1)*width..height*width-1).rev()`,
`(width..(height-1)*width).step_by(width).rev()`. -/
def YinYang.new (h w : Nat) : YinYang :=
  { height := h, width := w,
    data := List.replicate (h * w) 3,
    border := List.range w
      ++ stepRange (2 * w - 1) (h * w) w
      ++ (rangeFromTo ((h - 1) * w) (h * w - 1)).reverse
      ++ (stepRange w ((h - 1) * w) w).reverse }

/-- The character loop of `YinYang::from_string` (src/yy_engine/src/lib.rs
lines 145-158). -/
def yyFromStringGo : List Char → Nat → YinYang → Except Char YinYang
  | [], _, y => .ok y
  | c :: rest, i, y =>
    if c = '0' then yyFromStringGo rest (i + 1) y
    else if c = '1' then yyFromStringGo rest (i + 1) { y with data := y.data.set i 1 }
    else if c = '2' then yyFromStringGo rest (i + 1) { y with data := y.data.set i 2 }
    else .error c

/-- `YinYang::from_string` (src/yy_engine/src/lib.rs lines 138-161); the
`BadDimensions` and `BadEncoding` errors are collapsed into `Except` values. -/
def YinYang.from_string (h w : Nat) (repr : List Char) : Option YinYang :=
  if h * w ≠ repr.length then none
  else
    match yyFromStringGo repr 0 (YinYang.new h w) with
    | .error _ => none
    | .ok y => some y

/-- `Solvable::indices` for `YinYang` (src/yy_engine/src/lib.rs lines
519-523): the collected border, then `0..data.len()` appended. -/
def YinYang.indices (y : YinYang) : List Nat :=
  y.border ++ List.range y.data.length

/-! ### The generic search (src/solution_iter/src/lib.rs)

The `Solvable` trait becomes a record of operations.  Rust's
`fn assign(&mut self, ..) -> bool` mutates and reports failure; since a
failed branch is always discarded, it becomes `σ → Nat → γ → Option σ`,
and likewise `deduce`. -/

structure SolvableOps (σ : Type) (γ : Type) where
  assign : σ → Nat → γ → Option σ
  deduce : σ → Option σ
  next_idx_to_guess : σ → Option Nat
  guesses : σ → Nat → List γ
  solved : σ → Bool
  indices : σ → List Nat
  possibility : σ → Nat → γ → Bool
  merge : σ → σ → σ

/-- A stack frame of `SolutionIterator`: `(snapshot, guess index, remaining
guesses)`.  Rust pops guesses from the **end** of the `Vec`, so the model
stores the pending guesses in pop order (the reverse of `guesses()`); pushes
therefore reverse the sequence, and popping is taking the head. -/
def Frame (σ γ : Type) := σ × Nat × List γ

/-- One iteration of the `while` loop of `SolutionIterator::next`
(src/solution_iter/src/lib.rs lines 73-111).  Returns `none` when the stack
is empty (the iterator is exhausted); otherwise returns the yielded solution,
if any, and the new stack. -/
def step {σ γ : Type} (S : SolvableOps σ γ) :
    List (Frame σ γ) → Option (Option σ × List (Frame σ γ))
  | [] => none
  | (b, i, vs) :: rest =>
    if S.solved b then some (some b, rest)
    else
      match vs with
      | [] => some (none, rest)
      | v :: vs2 =>
        let st2 := (b, i, vs2) :: rest
        some (match S.assign b i v with
          | none => (none, st2)
          | some b1 =>
            match S.deduce b1 with
            | none => (none, st2)
            | some b2 =>
              if S.solved b2 then (some b2, st2)
              else
                match S.next_idx_to_guess b2 with
                | none => (none, st2)
                | some j => (none, (b2, j, (S.guesses b2 j).reverse) :: st2))

/-- `SolutionIterator::next`, fuelled by the number of loop iterations; also
returns the unconsumed fuel so that successive calls thread it. -/
def nextSol {σ γ : Type} (S : SolvableOps σ γ) :
    Nat → List (Frame σ γ) → Option (σ × List (Frame σ γ) × Nat)
  | 0, _ => none
  | fuel + 1, st =>
    match step S st with
    | none => none
    | some (some b, st2) => some (b, st2, fuel)
    | some (none, st2) => nextSol S fuel st2

/-- `SolutionIterator::new` (src/solution_iter/src/lib.rs lines 43-67). -/
def initStack {σ γ : Type} (S : SolvableOps σ γ) (b : σ) : List (Frame σ γ) :=
  match S.deduce b with
  | none => []
  | some b1 =>
    match S.next_idx_to_guess b1 with
    | none => if S.solved b1 then [(b1, 0, [])] else []
    | some i => [(b1, i, (S.guesses b1 i).reverse)]

/-- Every solution the iterator will ever yield, in order: repeatedly run the
loop body, collecting yields, for `fuel` iterations. -/
def drain {σ γ : Type} (S : SolvableOps σ γ) : Nat → List (Frame σ γ) → List σ
  | 0, _ => []
  | fuel + 1, st =>
    match step S st with
    | none => []
    | some (some b, st2) => b :: drain S fuel st2
    | some (none, st2) => drain S fuel st2

/-- The solutions of `b` enumerated by `SolutionIterator::new(b)`. -/
def solList {σ γ : Type} (S : SolvableOps σ γ) (fuel : Nat) (b : σ) : List σ :=
  drain S fuel (initStack S b)

/-- The `for sln in iter { ret |= sln; }` loop of `true_candidates_dfs`. -/
def tcFold {σ γ : Type} (S : SolvableOps σ γ) : Nat → List (Frame σ γ) → σ → σ
  | 0, _, acc => acc
  | fuel + 1, st, acc =>
    match step S st with
    | none => acc
    | some (some b, st2) => tcFold S fuel st2 (S.merge acc b)
    | some (none, st2) => tcFold S fuel st2 acc

/-- `true_candidates_dfs` (src/solution_iter/src/lib.rs lines 121-131): seed
with the first solution, union-merge every further one. -/
def true_candidates_dfs {σ γ : Type} (S : SolvableOps σ γ) (fuel : Nat) (b : σ) :
    Option σ :=
  match nextSol S fuel (initStack S b) with
  | none => none
  | some (r, st2, fuel2) => some (tcFold S fuel2 st2 r)

/-! ### The request listener (src/listener/src/requests.rs) -/

/-- `Response` (src/listener/src/types.rs lines 45-78). -/
inductive Response where
  | Cancelled : Nat → Response
  | Invalid : Nat → String → Response
  | TrueCandidates : Nat → List Nat → Response
  | Solved : Nat → List Nat → Response
  | Count : Nat → Nat → Bool → Response
  | LogicalResponse : Nat → String → Bool → Response
deriving DecidableEq

/-- `check_solutions` (src/listener/src/requests.rs lines 11-47) for a
successfully constructed board and a never-cancelled token, as the list of
responses sent: `for count in 0..2` asks the solution iterator for a
solution, answering `Count{count, inProgress: false}` at the first miss, and
`Count{2, inProgress: false}` when two solutions exist.  (On a construction
error the function instead sends `Invalid` and stops; cancellation returns
without sending.) -/
def check_solutions {σ γ : Type} (S : SolvableOps σ γ) (fuel nonce : Nat) (b : σ) :
    List Response :=
  match nextSol S fuel (initStack S b) with
  | none => [.Count nonce 0 false]
  | some (_, st1, fuel1) =>
    match nextSol S fuel1 st1 with
    | none => [.Count nonce 1 false]
    | some _ => [.Count nonce 2 false]

/-! ### The `Solvable` binding for `Board`
(src/sudoku_engine/src/board.rs lines 28-34 and 790-823). -/

/-- `BitOrAssign for Board`: cellwise union of the grids (the boards merged
always share one metadata and hence one grid length). -/
def Board.bitOrAssign (b r : Board) : Board :=
  { b with grid := List.zipWith (fun x y => x ||| y) b.grid r.grid }

def boardOps : SolvableOps Board Nat :=
  { assign := fun b i g => (b.assign i g).map (fun p => p.2),
    deduce := Board.deduce,
    next_idx_to_guess := Board.next_idx_to_guess,
    guesses := fun b i => (b.iter_ones i).map (fun d => 1 <<< d),
    solved := Board.solved,
    indices := fun b => List.range b.grid.length,
    possibility := Board.possibility,
    merge := Board.bitOrAssign }

/-! ### The parallel counting search
(src/sudoku_engine/src/board.rs lines 586-637), with a never-cancelled token.

`solution_count_helper` deduces, returns 1 on solved, otherwise recurses over
every candidate of the most constrained cell and sums; when the local sum
exceeds 500 it is flushed into the channel and 0 is returned.  The functional
model returns the pair (returned value, sum of all channel sends performed in
the subtree); with a never-cancelled token every `try_send` retry loop
eventually delivers its value, so the channel contents are exactly that sum. -/

def helperPairF : Nat → Board → Nat × Nat
  | 0, _ => (0, 0)
  | fuel + 1, b =>
    match b.deduce with
    | none => (0, 0)
    | some b1 =>
      if b1.solved then (1, 0)
      else
        match b1.next_idx_to_guess with
        | none => (0, 0)
        | some idx =>
          let rs := (b1.iter_ones idx).map (fun v =>
            match b1.assign idx (1 <<< v) with
            | none => (0, 0)
            | some (_, b2) => helperPairF fuel b2)
          let cnt := (rs.map (fun p => p.1)).sum
          let snt := (rs.map (fun p => p.2)).sum
          if cnt > 500 then (0, snt + cnt) else (cnt, snt)

/-- The pure count computed by the same recursion, ignoring the channel. -/
def countRecF : Nat → Board → Nat
  | 0, _ => 0
  | fuel + 1, b =>
    match b.deduce with
    | none => 0
    | some b1 =>
      if b1.solved then 1
      else
        match b1.next_idx_to_guess with
        | none => 0
        | some idx =>
          ((b1.iter_ones idx).map (fun v =>
            match b1.assign idx (1 <<< v) with
            | none => 0
            | some (_, b2) => countRecF fuel b2)).sum

/-- Number of multi-candidate cells: the measure strictly decreased by each
guess of the search. -/
def muB (b : Board) : Nat := b.grid.countP (fun c => 2 ≤ popcount c)

/-- The recursion depth of `solution_count_helper` on a well-formed board is
bounded by the number of multi-candidate cells, so `muB b + 1` fuel is
canonical. -/
def countRec (b : Board) : Nat := countRecF (muB b + 1) b

/-- `solution_count` (src/sudoku_engine/src/board.rs lines 630-637): the
helper's subtree sends plus the final residual send — everything a receiver
accumulates with a never-cancelled token. -/
def solution_count_total (b : Board) : Nat :=
  (helperPairF (muB b + 1) b).1 + (helperPairF (muB b + 1) b).2

/-- The count contributed by one guess `v` at index `i` of board `b`. -/
def childCount (b : Board) (i v : Nat) : Nat :=
  match boardOps.assign b i v with
  | none => 0
  | some b1 => countRec b1

/-- The count of solutions still to be yielded from one stack frame. -/
def frameCount (fr : Frame Board Nat) : Nat :=
  if Board.solved fr.1 then 1 else (fr.2.2.map (fun v => childCount fr.1 fr.2.1 v)).sum

def stackCount (st : List (Frame Board Nat)) : Nat := (st.map frameCount).sum

/-! ### Claim C6: `eliminate` -/

/-- The conclusion of claim C6 at given arguments: `eliminate` clears the
mask's bits from the cell, returns `Same` exactly when no bit was cleared,
`Contradiction` (`none`) exactly when the resulting cell mask is zero,
`Eliminated` otherwise, and a repeated call returns `Same` and leaves the
cell unchanged. -/
def EliminateSpec (idx value : Nat) (grid : List Nat) : Prop :=
  (eliminate idx value grid = some (.Same, grid) ↔ grid.getD idx 0 &&& value = 0)
  ∧ (eliminate idx value grid = none ↔
      (grid.getD idx 0 &&& value ≠ 0 ∧ natLdiff (grid.getD idx 0) value = 0))
  ∧ ∀ e g2, eliminate idx value grid = some (e, g2) →
      g2.getD idx 0 &&& value = 0
      ∧ (∀ k, k ≠ idx → g2.getD k 0 = grid.getD k 0)
      ∧ (grid.getD idx 0 &&& value ≠ 0 →
          e = .Eliminated ∧ g2 = grid.set idx (natLdiff (grid.getD idx 0) value))
      ∧ eliminate idx value g2 = some (.Same, g2)

/-- C6: for every board grid, in-bounds index and mask, `eliminate` clears
the mask's bits from the cell and returns `Same` when no bit was actually
cleared, `Contradiction` when the resulting cell mask is zero, and
`Eliminated` otherwise; a second call with the same mask returns `Same` and
leaves the cell unchanged. -/
theorem eliminate_def (idx value : Nat) (grid : List Nat) :
    eliminate idx value grid =
      if grid.getD idx 0 &&& value = 0 then some (.Same, grid)
      else if natLdiff (grid.getD idx 0) value = 0 then none
      else some (.Eliminated, grid.set idx (natLdiff (grid.getD idx 0) value)) := rfl

theorem c6_eliminate_spec (idx value : Nat) (grid : List Nat) (h : idx < grid.length) :
    EliminateSpec idx value grid := by
  unfold EliminateSpec
  rw [eliminate_def]
  by_cases h0 : grid.getD idx 0 &&& value = 0
  · rw [if_pos h0]
    refine ⟨⟨fun _ => h0, fun _ => rfl⟩, ⟨fun hc => absurd hc (by simp), fun hc => absurd h0 hc.1⟩, ?_⟩
    intro e g2 hsome
    have he : e = .Same ∧ g2 = grid := by
      have := hsome
      simp only [Option.some.injEq, Prod.mk.injEq] at this
      exact ⟨this.1.symm, this.2.symm⟩
    rw [he.2]
    refine ⟨h0, fun k _ => rfl, fun hc => absurd h0 hc, ?_⟩
    rw [eliminate_def, if_pos h0]
  · rw [if_neg h0]
    by_cases hz : natLdiff (grid.getD idx 0) value = 0
    · rw [if_pos hz]
      refine ⟨⟨fun hc => absurd hc (by simp), fun hc => absurd hc h0⟩,
        ⟨fun _ => ⟨h0, hz⟩, fun _ => rfl⟩, ?_⟩
      intro e g2 hsome
      exact absurd hsome (by simp)
    · rw [if_neg hz]
      refine ⟨⟨?_, fun hc => absurd hc h0⟩, ⟨fun hc => absurd hc (by simp), fun hc => absurd hc.2 hz⟩, ?_⟩
      · intro hsome
        simp only [Option.some.injEq, Prod.mk.injEq] at hsome
        exact absurd hsome.1.symm (by simp)
      · intro e g2 hsome
        have hpair : e = .Eliminated ∧ g2 = grid.set idx (natLdiff (grid.getD idx 0) value) := by
          have := hsome
          simp only [Option.some.injEq, Prod.mk.injEq] at this
          exact ⟨this.1.symm, this.2.symm⟩
        have hcell : g2.getD idx 0 &&& value = 0 := by
          rw [hpair.2, getD_set_self h]
          exact ldiff_and_zero _ _
        refine ⟨hcell, ?_, fun _ => hpair, ?_⟩
        · intro k hk
          rw [hpair.2, getD_set_ne hk]
        · rw [eliminate_def, if_pos hcell]

/-- Witness for C6 at a concrete input. -/
theorem c6_eliminate_spec_witness :
    (0 : Nat) < ([6, 6] : List Nat).length ∧ EliminateSpec 0 2 [6, 6] :=
  ⟨by decide, c6_eliminate_spec 0 2 [6, 6] (by decide)⟩

/-! ### Claim C9: `rc_to_idx` -/

/-- C9 (refuting evaluation): `rc_to_idx` does not reject a zero row.  For
`"R0C1"` with `size = 9`, the bounds checks `x > size`/`y > size` pass
(`0 > 9` is false), and `(y - 1) * size + (x - 1)` in release-mode `usize`
arithmetic wraps to `2^64 - 9`, far outside the 81-cell grid (a debug build
panics on the same subtraction).  A well-formed reference still works:
`"R1C1"` maps to index 0. -/
theorem c9_rc_to_idx_row_zero :
    rc_to_idx ['R', '0', 'C', '1'] 9 = .ok (U64 - 9)
    ∧ 9 * 9 ≤ U64 - 9
    ∧ rc_to_idx ['R', '1', 'C', '1'] 9 = .ok 0 := by
  refine ⟨?_, by decide, ?_⟩ <;> rfl

/-! ### Relating `drain` to `nextSol` -/

theorem nextSol_succ {σ γ : Type} (S : SolvableOps σ γ) (f : Nat) (st : List (Frame σ γ)) :
    nextSol S (f + 1) st =
      match step S st with
      | none => none
      | some (some b, st2) => some (b, st2, f)
      | some (none, st2) => nextSol S f st2 := rfl

theorem drain_succ {σ γ : Type} (S : SolvableOps σ γ) (f : Nat) (st : List (Frame σ γ)) :
    drain S (f + 1) st =
      match step S st with
      | none => []
      | some (some b, st2) => b :: drain S f st2
      | some (none, st2) => drain S f st2 := rfl

theorem drain_eq_nextSol {σ γ : Type} (S : SolvableOps σ γ) :
    ∀ (fuel : Nat) (st : List (Frame σ γ)),
      drain S fuel st =
        match nextSol S fuel st with
        | none => []
        | some (b, st2, fuel2) => b :: drain S fuel2 st2 := by
  intro fuel
  induction fuel with
  | zero => intro st; rfl
  | succ f ih =>
    intro st
    rw [drain_succ, nextSol_succ]
    rcases hs : step S st with _ | ⟨ob, st2⟩
    · rfl
    · match ob with
      | some b => rfl
      | none => exact ih st2

/-! ### Claim C3: `check_solutions` -/

/-- C3: for every puzzle whose board was successfully constructed, with a
never-cancelled token, `check_solutions` sends exactly one `Count` response,
terminal (`inProgress = false`), whose count is 0, 1 or 2 according to
whether the solution iterator yields no, exactly one, or at least two
solutions — the enumeration stopping after the second. -/
theorem c3_check_solutions {σ γ : Type} (S : SolvableOps σ γ) (fuel nonce : Nat) (b : σ) :
    check_solutions S fuel nonce b =
      [.Count nonce (min 2 (solList S fuel b).length) false] := by
  unfold check_solutions
  rcases h1 : nextSol S fuel (initStack S b) with _ | ⟨b1, st1, f1⟩
  · have hsol2 : solList S fuel b = [] := by
      unfold solList
      rw [drain_eq_nextSol S fuel (initStack S b), h1]
    simp [hsol2]
  · have hsol2 : solList S fuel b = b1 :: drain S f1 st1 := by
      unfold solList
      rw [drain_eq_nextSol S fuel (initStack S b), h1]
    rcases h2 : nextSol S f1 st1 with _ | ⟨b2, st2, f2⟩
    · have hd2 : drain S f1 st1 = [] := by
        rw [drain_eq_nextSol S f1 st1, h2]
      simp [h2, hsol2, hd2]
    · have hd2 : drain S f1 st1 = b2 :: drain S f2 st2 := by
        rw [drain_eq_nextSol S f1 st1, h2]
      simp only [h2, hsol2, hd2, List.length_cons]
      have hmin : 2 ⊓ ((drain S f2 st2).length + 1 + 1) = 2 := by omega
      rw [hmin]

/-! ### Claim C10: yielded items are solved -/

theorem step_cons {σ γ : Type} (S : SolvableOps σ γ) (bb : σ) (i : Nat) (vs : List γ)
    (rest : List (Frame σ γ)) :
    step S ((bb, i, vs) :: rest) =
      if S.solved bb then some (some bb, rest)
      else
        match vs with
        | [] => some (none, rest)
        | v :: vs2 =>
          some (match S.assign bb i v with
            | none => (none, (bb, i, vs2) :: rest)
            | some b1 =>
              match S.deduce b1 with
              | none => (none, (bb, i, vs2) :: rest)
              | some b2 =>
                if S.solved b2 then (some b2, (bb, i, vs2) :: rest)
                else
                  match S.next_idx_to_guess b2 with
                  | none => (none, (bb, i, vs2) :: rest)
                  | some j =>
                    (none, (b2, j, (S.guesses b2 j).reverse) :: (bb, i, vs2) :: rest)) := rfl

theorem step_yield_solved {σ γ : Type} (S : SolvableOps σ γ)
    (st : List (Frame σ γ)) (b : σ) (st2 : List (Frame σ γ))
    (h : step S st = some (some b, st2)) : S.solved b = true := by
  match st with
  | [] => exact absurd h (by simp [step])
  | (bb, i, vs) :: rest =>
    rw [step_cons] at h
    split at h
    · simp only [Option.some.injEq, Prod.mk.injEq] at h
      rw [← h.1]
      assumption
    · split at h
      · simp at h
      · simp only [Option.some.injEq] at h
        split at h
        · simp at h
        · split at h
          · simp at h
          · split at h
            · simp only [Prod.mk.injEq, Option.some.injEq] at h
              rw [← h.1]
              assumption
            · split at h <;> simp at h

/-- C10: every item yielded by `SolutionIterator::next` satisfies `solved()`
at the moment it is returned; the iterator never yields an incomplete or
constraint-violating state (for `Board`, `solved` checks completion and all
constraints). -/
theorem c10_next_yields_solved {σ γ : Type} (S : SolvableOps σ γ) :
    ∀ (fuel : Nat) (st : List (Frame σ γ)) (b : σ) (st2 : List (Frame σ γ)) (fuel2 : Nat),
      nextSol S fuel st = some (b, st2, fuel2) → S.solved b = true := by
  intro fuel
  induction fuel with
  | zero =>
    intro st b st2 fuel2 h
    exact absurd h (by simp [nextSol])
  | succ f ih =>
    intro st b st2 fuel2 h
    unfold nextSol at h
    rcases hs : step S st with _ | ⟨ob, stA⟩
    · rw [hs] at h
      simp at h
    · rw [hs] at h
      match ob with
      | some bb =>
        simp only [Option.some.injEq, Prod.mk.injEq] at h
        rw [← h.1]
        exact step_yield_solved S st bb stA hs
      | none =>
        exact ih stA b st2 fuel2 h

/-- Trivial `Solvable` instance used to witness generic theorems. -/
def unitOps : SolvableOps Unit Unit :=
  { assign := fun _ _ _ => none,
    deduce := fun u => some u,
    next_idx_to_guess := fun _ => none,
    guesses := fun _ _ => [],
    solved := fun _ => true,
    indices := fun _ => [],
    possibility := fun _ _ _ => false,
    merge := fun a _ => a }

theorem c10_next_yields_solved_witness :
    nextSol unitOps 1 [((), 0, [])] = some ((), [], 0) ∧ unitOps.solved () = true :=
  ⟨rfl, c10_next_yields_solved unitOps 1 [((), 0, [])] () [] 0 rfl⟩

/-! ### Claim C5: `true_candidates_dfs` -/

theorem tcFold_succ {σ γ : Type} (S : SolvableOps σ γ) (f : Nat) (st : List (Frame σ γ))
    (acc : σ) :
    tcFold S (f + 1) st acc =
      match step S st with
      | none => acc
      | some (some b, st2) => tcFold S f st2 (S.merge acc b)
      | some (none, st2) => tcFold S f st2 acc := rfl

theorem tcFold_eq_drain_fold {σ γ : Type} (S : SolvableOps σ γ) :
    ∀ (fuel : Nat) (st : List (Frame σ γ)) (acc : σ),
      tcFold S fuel st acc = (drain S fuel st).foldl S.merge acc := by
  intro fuel
  induction fuel with
  | zero => intro st acc; rfl
  | succ f ih =>
    intro st acc
    rw [tcFold_succ, drain_succ]
    rcases hs : step S st with _ | ⟨ob, st2⟩
    · rfl
    · match ob with
      | some b => exact ih st2 (S.merge acc b)
      | none => exact ih st2 acc

/-- C5: `true_candidates_dfs` returns `none` exactly when the solution
iterator produces no solution, and otherwise returns the union-merge fold of
every solution the iterator produces (seeded with the first): with bitwise-or
merge, each cell's result mask is the union of that cell's values over all
solutions. -/
theorem c5_true_candidates_dfs {σ γ : Type} (S : SolvableOps σ γ) (fuel : Nat) (b : σ) :
    true_candidates_dfs S fuel b =
      match solList S fuel b with
      | [] => none
      | r :: rest => some (rest.foldl S.merge r) := by
  unfold true_candidates_dfs solList
  rw [drain_eq_nextSol]
  rcases h1 : nextSol S fuel (initStack S b) with _ | ⟨r, st2, fuel2⟩
  · rfl
  · show some (tcFold S fuel2 st2 r) = some ((drain S fuel2 st2).foldl S.merge r)
    rw [tcFold_eq_drain_fold]

/-! ### Claim C7: Yin-Yang `indices` -/

/-- A cell index on the perimeter of an `h × w` grid. -/
def isBorderCell (h w j : Nat) : Prop :=
  j / w = 0 ∨ j / w = h - 1 ∨ j % w = 0 ∨ j % w = w - 1

/-- The sequence the claim describes: border cells first, then the interior
cells, an enumeration of the grid. -/
def bordersThenInterior (y : YinYang) : List Nat :=
  y.border ++ (List.range y.data.length).filter (fun i => !(y.border.contains i))

/-- C7 (counterexample): on the 3×3 grid, `indices()` is not the border
followed by the interior — it appends all nine cells after the eight border
cells, listing every border cell twice (17 entries instead of 9). -/
theorem c7_indices_counterexample :
    YinYang.indices (YinYang.new 3 3) ≠ bordersThenInterior (YinYang.new 3 3) := by
  decide

theorem mem_stepRange {a b s j : Nat} (hs : 0 < s) (h : j ∈ stepRange a b s) :
    ∃ k, j = a + k * s ∧ j < b := by
  unfold stepRange at h
  rw [if_neg (by omega)] at h
  rcases List.mem_map.mp h with ⟨k, hk, rfl⟩
  rw [List.mem_range] at hk
  refine ⟨k, rfl, ?_⟩
  have h2 : k + 1 ≤ (b - a + s - 1) / s := hk
  have h3 : (k + 1) * s ≤ b - a + s - 1 := (Nat.le_div_iff_mul_le hs).mp h2
  have h4 : k * s + s ≤ b - a + s - 1 := by
    rw [Nat.succ_mul] at h3
    omega
  omega

theorem mem_rangeFromTo {a b j : Nat} (h : j ∈ rangeFromTo a b) : a ≤ j ∧ j < b := by
  unfold rangeFromTo at h
  rcases List.mem_map.mp h with ⟨k, hk, rfl⟩
  rw [List.mem_range] at hk
  omega

/-- Every entry of the constructed border list is a perimeter cell of the
grid. -/
theorem border_mem_spec {h w : Nat} (hh : 2 ≤ h) (hw : 2 ≤ w) :
    ∀ j ∈ (YinYang.new h w).border, j < h * w ∧ isBorderCell h w j := by
  intro j hj
  have hwpos : 0 < w := by omega
  unfold YinYang.new at hj
  simp only [List.mem_append] at hj
  rcases hj with ((h1 | h2) | h3) | h4
  · rw [List.mem_range] at h1
    refine ⟨by calc j < w := h1
                  _ ≤ h * w := Nat.le_mul_of_pos_left w (by omega), ?_⟩
    left
    exact Nat.div_eq_of_lt h1
  · rcases mem_stepRange hwpos h2 with ⟨k, hjk, hlt⟩
    refine ⟨hlt, ?_⟩
    right; right; right
    have hrw : j = (w - 1) + (k + 1) * w := by
      rw [hjk]
      have : 2 * w - 1 = (w - 1) + w := by omega
      rw [this]
      ring
    rw [hrw, Nat.add_mul_mod_self_right]
    exact Nat.mod_eq_of_lt (by omega)
  · rw [List.mem_reverse] at h3
    rcases mem_rangeFromTo h3 with ⟨hlo, hhi⟩
    have hjw : j < h * w := by
      have : h * w - 1 ≤ h * w := Nat.sub_le _ _
      omega
    refine ⟨hjw, ?_⟩
    right; left
    apply Nat.div_eq_of_lt_le
    · exact hlo
    · have : (h - 1 + 1) * w = h * w := by
        congr 1
        omega
      rw [this]
      exact hjw
  · rw [List.mem_reverse] at h4
    rcases mem_stepRange hwpos h4 with ⟨k, hjk, hlt⟩
    have hjw : j < h * w := by
      have : (h - 1) * w ≤ h * w := Nat.mul_le_mul_right w (Nat.sub_le _ _)
      omega
    refine ⟨hjw, ?_⟩
    right; right; left
    have hrw : j = 0 + (k + 1) * w := by
      rw [hjk]
      ring
    rw [hrw, Nat.add_mul_mod_self_right]
    rfl

/-- The conclusion of the amended claim C7 for an `h × w` grid. -/
def C7Spec (h w : Nat) : Prop :=
  YinYang.indices (YinYang.new h w) = (YinYang.new h w).border ++ List.range (h * w)
  ∧ (∀ j ∈ (YinYang.new h w).border, j < h * w ∧ isBorderCell h w j)
  ∧ ∀ i, i < h * w → ¬ isBorderCell h w i →
      ∀ j ∈ (YinYang.new h w).border,
        List.indexOf j (YinYang.indices (YinYang.new h w)) <
          List.indexOf i (YinYang.indices (YinYang.new h w))

/-- C7 (amended): `indices()` lists the border cells first and then **all**
cells of the grid in row-major order (so border cells appear a second time);
consequently the first occurrence of every border cell still precedes the
first occurrence of every interior cell. -/
theorem c7_indices_amended (h w : Nat) (hh : 2 ≤ h) (hw : 2 ≤ w) : C7Spec h w := by
  have hlen : (YinYang.new h w).data.length = h * w := by
    show (List.replicate (h * w) 3).length = h * w
    exact List.length_replicate _ _
  have heq : YinYang.indices (YinYang.new h w) = (YinYang.new h w).border ++ List.range (h * w) := by
    unfold YinYang.indices
    rw [hlen]
  refine ⟨heq, border_mem_spec hh hw, ?_⟩
  intro i hi hnotb j hj
  have hnotmem : i ∉ (YinYang.new h w).border := by
    intro hc
    exact hnotb (border_mem_spec hh hw i hc).2
  rw [heq]
  have hjlt : List.indexOf j ((YinYang.new h w).border ++ List.range (h * w)) <
      (YinYang.new h w).border.length := by
    rw [List.indexOf_append_of_mem hj]
    exact List.indexOf_lt_length.mpr hj
  have hige : (YinYang.new h w).border.length ≤
      List.indexOf i ((YinYang.new h w).border ++ List.range (h * w)) := by
    rw [List.indexOf_append_of_not_mem hnotmem]
    exact Nat.le_add_right _ _
  omega

/-- Witness for the amended C7 on the 3×3 grid. -/
theorem c7_indices_amended_witness : 2 ≤ 3 ∧ C7Spec 3 3 :=
  ⟨by decide, c7_indices_amended 3 3 (by decide) (by decide)⟩

/-! ### Preservation lemmas for the elimination pipeline -/

theorem eliminate_nonzero {idx value : Nat} {g : List Nat} {e : Elimination} {g2 : List Nat}
    (h : eliminate idx value g = some (e, g2)) :
    ∀ k, g.getD k 0 ≠ 0 → g2.getD k 0 ≠ 0 := by
  intro k hk
  rw [eliminate_def] at h
  split at h
  · simp only [Option.some.injEq, Prod.mk.injEq] at h
    rw [← h.2]
    exact hk
  · split at h
    · simp at h
    · simp only [Option.some.injEq, Prod.mk.injEq] at h
      rw [← h.2]
      by_cases hki : k = idx
      · subst hki
        have hidx : k < g.length := getD_lt_length hk
        rw [getD_set_self hidx]
        assumption
      · rw [getD_set_ne hki]
        exact hk

/-- Combined facts preserved by every elimination loop over a grid. -/
def GridPres (idx : Nat) (g2 g : List Nat) : Prop :=
  GridLE g2 g ∧ (∀ k, g.getD k 0 ≠ 0 → g2.getD k 0 ≠ 0) ∧ g2.getD idx 0 = g.getD idx 0

theorem GridPres_refl (idx : Nat) (g : List Nat) : GridPres idx g g :=
  ⟨GridLE_refl g, fun _ hk => hk, rfl⟩

theorem GridPres_trans {idx : Nat} {g3 g2 g : List Nat}
    (h32 : GridPres idx g3 g2) (h21 : GridPres idx g2 g) : GridPres idx g3 g :=
  ⟨GridLE_trans h32.1 h21.1, fun k hk => h32.2.1 k (h21.2.1 k hk), h32.2.2.trans h21.2.2⟩

theorem eliminate_gridPres {c value : Nat} {g : List Nat} {e : Elimination} {g2 : List Nat}
    {idx : Nat} (h : eliminate c value g = some (e, g2)) (hc : c ≠ idx) :
    GridPres idx g2 g :=
  ⟨eliminate_grid_le h, eliminate_nonzero h, eliminate_untouched h (Ne.symm hc)⟩

theorem elimLoop_gridPres {value idx : Nat} :
    ∀ (cells : List Nat) (e0 : Elimination) (g : List Nat) (e2 : Elimination) (g2 : List Nat),
      elimLoop value idx cells e0 g = some (e2, g2) → GridPres idx g2 g := by
  intro cells
  induction cells with
  | nil =>
    intro e0 g e2 g2 h
    simp only [elimLoop, Option.some.injEq, Prod.mk.injEq] at h
    rw [← h.2]
    exact GridPres_refl idx g
  | cons c rest ih =>
    intro e0 g e2 g2 h
    unfold elimLoop at h
    by_cases hc : c = idx
    · rw [if_pos hc] at h
      exact ih e0 g e2 g2 h
    · rw [if_neg hc] at h
      rcases he : eliminate c value g with _ | ⟨eA, gA⟩
      · rw [he] at h
        simp at h
      · rw [he] at h
        exact GridPres_trans (ih _ gA e2 g2 h) (eliminate_gridPres he hc)

theorem regionElim_gridPres {value idx : Nat} :
    ∀ (regions : List (List Nat)) (e0 : Elimination) (g : List Nat)
      (e2 : Elimination) (g2 : List Nat),
      regionElim value idx regions e0 g = some (e2, g2) → GridPres idx g2 g := by
  intro regions
  induction regions with
  | nil =>
    intro e0 g e2 g2 h
    simp only [regionElim, Option.some.injEq, Prod.mk.injEq] at h
    rw [← h.2]
    exact GridPres_refl idx g
  | cons r rest ih =>
    intro e0 g e2 g2 h
    unfold regionElim at h
    by_cases hr : idx ∈ r
    · rw [if_pos hr] at h
      exact elimLoop_gridPres r e0 g e2 g2 h
    · rw [if_neg hr] at h
      exact ih e0 g e2 g2 h

theorem region_enforce_gridPres {idx value : Nat} {region : List Nat} {g : List Nat}
    {e2 : Elimination} {g2 : List Nat}
    (h : region_enforce_consistency idx value region g = some (e2, g2)) : GridPres idx g2 g := by
  unfold region_enforce_consistency at h
  by_cases hr : idx ∈ region
  · rw [if_pos hr] at h
    exact elimLoop_gridPres region .Same g e2 g2 h
  · rw [if_neg hr] at h
    simp only [Option.some.injEq, Prod.mk.injEq] at h
    rw [← h.2]
    exact GridPres_refl idx g

theorem constraintsLoop_gridPres {idx value size : Nat} :
    ∀ (cs : List Constraint) (e0 : Elimination) (g : List Nat)
      (e2 : Elimination) (g2 : List Nat),
      constraintsLoop idx value size cs e0 g = some (e2, g2) → GridPres idx g2 g := by
  intro cs
  induction cs with
  | nil =>
    intro e0 g e2 g2 h
    simp only [constraintsLoop, Option.some.injEq, Prod.mk.injEq] at h
    rw [← h.2]
    exact GridPres_refl idx g
  | cons c rest ih =>
    intro e0 g e2 g2 h
    match c with
    | .Quad q s d =>
      unfold constraintsLoop at h
      rcases hq : quad_enforce_consistency idx q s d size g with _ | eA
      · rw [hq] at h
        simp at h
      · rw [hq] at h
        exact ih _ g e2 g2 h
    | .Region r =>
      unfold constraintsLoop at h
      rcases hr : region_enforce_consistency idx value r g with _ | ⟨eA, gA⟩
      · rw [hr] at h
        simp at h
      · rw [hr] at h
        exact GridPres_trans (ih _ gA e2 g2 h) (region_enforce_gridPres hr)

theorem assignPipeline_pres {bp : Board} {idx value : Nat} {e : Elimination} {b2 : Board}
    (h : assignPipeline bp idx value = some (e, b2)) :
    b2.meta = bp.meta ∧ b2.solvedDigits = bp.solvedDigits ∧ b2.usedDigits = bp.usedDigits
    ∧ GridPres idx b2.grid bp.grid := by
  unfold assignPipeline at h
  rcases h1 : elimLoop value idx (bp.meta.rows.getD (idx / bp.meta.size) []) .Same bp.grid
    with _ | ⟨e1, g1⟩
  · rw [h1] at h
    simp at h
  rw [h1] at h
  simp only at h
  rcases h2 : elimLoop value idx
      (bp.meta.columns.getD (idx - bp.meta.size * (idx / bp.meta.size)) []) e1 g1
    with _ | ⟨e2, g2⟩
  · rw [h2] at h
    simp at h
  rw [h2] at h
  simp only at h
  rcases h3 : regionElim value idx bp.meta.regions e2 g2 with _ | ⟨e3, g3⟩
  · rw [h3] at h
    simp at h
  rw [h3] at h
  simp only at h
  rcases h4 : constraintsLoop idx value bp.meta.size bp.meta.constraints e3 g3
    with _ | ⟨e4, g4⟩
  · rw [h4] at h
    simp at h
  rw [h4] at h
  simp only [Option.some.injEq, Prod.mk.injEq] at h
  rw [← h.2]
  refine ⟨rfl, rfl, rfl, ?_⟩
  exact GridPres_trans (GridPres_trans (GridPres_trans
    (constraintsLoop_gridPres _ _ _ _ _ h4)
    (regionElim_gridPres _ _ _ _ _ h3))
    (elimLoop_gridPres _ _ _ _ _ h2))
    (elimLoop_gridPres _ _ _ _ _ h1)

/-- Everything `Board::assign` preserves or establishes, when it succeeds. -/
theorem assign_pres {b : Board} {idx value : Nat} {e : Elimination} {b2 : Board}
    (h : b.assign idx value = some (e, b2)) :
    b2.meta = b.meta
    ∧ b2.solvedDigits.length = b.solvedDigits.length
    ∧ (∀ k, k ≠ idx → b2.solvedDigits.getD k false = b.solvedDigits.getD k false)
    ∧ (idx < b.solvedDigits.length → b2.solvedDigits.getD idx false = true)
    ∧ b2.grid.length = b.grid.length
    ∧ (∀ k, k ≠ idx → b2.grid.getD k 0 &&& b.grid.getD k 0 = b2.grid.getD k 0)
    ∧ (∀ k, k ≠ idx → b.grid.getD k 0 ≠ 0 → b2.grid.getD k 0 ≠ 0)
    ∧ (b.solvedDigits.getD idx false = false → idx < b.grid.length →
        b2.grid.getD idx 0 = value)
    ∧ (b.solvedDigits.getD idx false = true → b2.grid.getD idx 0 = b.grid.getD idx 0) := by
  unfold Board.assign at h
  by_cases hs : b.solvedDigits.getD idx false
  · rw [if_pos hs] at h
    rcases assignPipeline_pres h with ⟨hmeta, hsolved, _, hle, hnz, htouch⟩
    refine ⟨hmeta, by rw [hsolved], fun k _ => by rw [hsolved],
      fun _ => by rw [hsolved]; exact hs, hle.1, fun k _ => hle.2 k,
      fun k _ => hnz k, fun hc => absurd hs (by rw [hc]; exact Bool.false_ne_true),
      fun _ => htouch⟩
  · rw [if_neg hs] at h
    simp only at h
    by_cases hcnt : popcount (b.usedDigits ||| value) > b.meta.size
    · rw [if_pos hcnt] at h
      simp at h
    · rw [if_neg hcnt] at h
      rcases assignPipeline_pres h with ⟨hmeta, hsolved, _, hle, hnz, htouch⟩
      have hsb : Bool.not (b.solvedDigits.getD idx false) = true := by
        simp only [Bool.not_eq_true']
        exact Bool.not_eq_true _ |>.mp hs
      refine ⟨hmeta, ?_, ?_, ?_, ?_, ?_, ?_, ?_, ?_⟩
      · rw [hsolved]
        exact List.length_set ..
      · intro k hk
        rw [hsolved]
        show (b.solvedDigits.set idx true).getD k false = _
        exact getD_set_ne_gen hk true false
      · intro hlt
        rw [hsolved]
        show (b.solvedDigits.set idx true).getD idx false = true
        exact getD_set_self_gen hlt true false
      · rw [hle.1]
        exact List.length_set ..
      · intro k hk
        have := hle.2 k
        show b2.grid.getD k 0 &&& b.grid.getD k 0 = b2.grid.getD k 0
        rw [show (b.grid.set idx value).getD k 0 = b.grid.getD k 0 from getD_set_ne hk value] at this
        exact this
      · intro k hk hnzk
        apply hnz k
        rw [getD_set_ne hk]
        exact hnzk
      · intro _ hlt
        rw [htouch, getD_set_self hlt]
      · intro hc
        rw [hc] at hs
        exact absurd rfl hs

/-! ### C8: compact-string parsing -/

theorem getD_of_length_le {α : Type} {l : List α} {i : Nat} (h : l.length ≤ i) (d : α) :
    l.getD i d = d := by
  rw [List.getD_eq_getElem?_getD, List.getElem?_eq_none (by omega)]
  rfl

theorem getD_replicate_or {α : Type} (n k : Nat) (a d : α) :
    (List.replicate n a).getD k d = a ∨ (List.replicate n a).getD k d = d := by
  by_cases hk : k < n
  · left
    rw [List.getD_eq_getElem?_getD, List.getElem?_replicate, if_pos hk]
    rfl
  · right
    exact getD_of_length_le (by rw [List.length_replicate]; omega) d

theorem two_pow_and_one {k : Nat} (h : k ≠ 0) : 2 ^ k &&& 1 = 0 := by
  apply Nat.eq_of_testBit_eq
  intro i
  rw [Nat.testBit_and, Nat.zero_testBit, Nat.testBit_two_pow]
  cases hi : Nat.testBit 1 i with
  | false => simp
  | true =>
    have : i = 0 := by
      by_contra hne
      rw [show (1 : Nat) = 2 ^ 0 from rfl, Nat.testBit_two_pow] at hi
      simp at hi
      omega
    subst this
    simp
    omega

theorem submask_singleton {a k : Nat} (hsub : a &&& 2 ^ k = a) (hnz : a ≠ 0) :
    a = 2 ^ k := by
  by_contra hne
  have hlt := popcount_lt_of_submask_ne hsub hne
  rw [popcount_two_pow] at hlt
  have := popcount_pos hnz
  omega

theorem full_cell_and_one (mv : Nat) : ((1 <<< (mv + 1)) - 2) &&& 1 = 0 := by
  rw [Nat.and_one_is_mod, Nat.one_shiftLeft]
  have h : 2 ^ (mv + 1) = 2 * 2 ^ mv := by ring
  omega

theorem fromDigitsGo_cons_none (rest : List (Option Nat)) (i0 : Nat) (b : Board) :
    fromDigitsGo (none :: rest) i0 b = fromDigitsGo rest (i0 + 1) b := rfl

theorem fromDigitsGo_cons_some (d : Nat) (rest : List (Option Nat)) (i0 : Nat) (b : Board) :
    fromDigitsGo (some d :: rest) i0 b =
      if b.grid.getD i0 0 &&& d = 0 then .error .Contradiction
      else
        match b.assign i0 d with
        | none => .error .Contradiction
        | some (_, b2) => fromDigitsGo rest (i0 + 1) b2 := rfl

/-- `Board::assign` keeps a grid free of a bit the assigned value lacks
(used with bit 0, which `empty_cell` never sets). -/
theorem assign_even {b : Board} {idx value : Nat} {e : Elimination} {b2 : Board}
    (h : b.assign idx value = some (e, b2)) (hv : value &&& 1 = 0)
    (hinv : ∀ k, b.grid.getD k 0 &&& 1 = 0) : ∀ k, b2.grid.getD k 0 &&& 1 = 0 := by
  intro k
  rcases assign_pres h with ⟨-, -, -, -, hlen, hsub, -, hset, hkeep⟩
  by_cases hk : k = idx
  · subst hk
    by_cases hsolv : b.solvedDigits.getD k false = true
    · rw [hkeep hsolv]
      exact hinv k
    · by_cases hlt : k < b.grid.length
      · rw [hset (Bool.not_eq_true _ ▸ (by simpa using hsolv)) hlt]
        exact hv
      · rw [getD_of_length_le (by rw [hlen]; omega) 0]
        rfl
  · have hs := hsub k hk
    exact and_zero_of_submask hs (hinv k)

/-- If the digit list contains the given `1` (bit 0 set — the parse of the
character `0`) and every given is a single bit, placement on a bit-0-free
grid can never succeed: the possibility check `grid[i] & digit == 0` fires. -/
theorem fromDigitsGo_no_bit0 (ds : List (Option Nat)) :
    ∀ (i0 : Nat) (b : Board), some 1 ∈ ds →
    (∀ v, some v ∈ ds → ∃ k, v = 2 ^ k) →
    (∀ k, b.grid.getD k 0 &&& 1 = 0) →
    ∀ bOut, fromDigitsGo ds i0 b ≠ .ok bOut := by
  induction ds with
  | nil =>
    intro _ _ hmem
    exact absurd hmem (List.not_mem_nil _)
  | cons hd rest ih =>
    intro i0 b hmem hpow hinv bOut h
    cases hd with
    | none =>
      rw [fromDigitsGo_cons_none] at h
      have hmem' : some 1 ∈ rest := by
        rcases List.mem_cons.mp hmem with h1 | h1
        · exact absurd h1 (by simp)
        · exact h1
      exact ih (i0 + 1) b hmem' (fun v hv => hpow v (List.mem_cons_of_mem _ hv)) hinv bOut h
    | some d =>
      rw [fromDigitsGo_cons_some] at h
      by_cases hz : b.grid.getD i0 0 &&& d = 0
      · rw [if_pos hz] at h
        simp at h
      · rw [if_neg hz] at h
        by_cases hd1 : d = 1
        · subst hd1
          exact hz (hinv i0)
        · have hmem' : some 1 ∈ rest := by
            rcases List.mem_cons.mp hmem with h1 | h1
            · exact absurd (Option.some.inj h1).symm hd1
            · exact h1
          rcases hpow d (List.mem_cons_self _ _) with ⟨k, hk⟩
          have hk0 : k ≠ 0 := by
            intro h0
            exact hd1 (by rw [hk, h0]; rfl)
          have hdeven : d &&& 1 = 0 := by
            rw [hk]
            exact two_pow_and_one hk0
          cases hass : b.assign i0 d with
          | none =>
            rw [hass] at h
            simp at h
          | some p =>
            rw [hass] at h
            simp only at h
            rcases p with ⟨e, b1⟩
            exact ih (i0 + 1) b1 hmem'
              (fun v hv => hpow v (List.mem_cons_of_mem _ hv))
              (assign_even hass hdeven hinv) bOut h

theorem initConstraintsF_nil (size n : Nat) (g : List Nat) :
    initConstraintsF size (n + 1) [] g = some g := rfl

/-- The shape of a successfully constructed default board: full cells,
no solved flags, canonical meta, empty constraint list. -/
theorem Board.new_ok {size maxVal : Nat} {b : Board}
    (h : Board.new size maxVal = .ok b) :
    b.grid = List.replicate (size * size) ((1 <<< (maxVal + 1)) - 2)
    ∧ b.solvedDigits = List.replicate (size * size) false
    ∧ b.usedDigits = 0
    ∧ b.meta.size = size ∧ b.meta.maxVal = maxVal
    ∧ b.meta.rows = canonicalRows size ∧ b.meta.columns = canonicalColumns size
    ∧ b.meta.constraints = []
    ∧ size ≤ maxVal ∧ maxVal < 64 := by
  unfold Board.new at h
  cases hreg : build_default_regions size with
  | error e =>
    rw [hreg] at h
    simp at h
  | ok regs =>
    rw [hreg] at h
    simp only at h
    unfold Board.new_with_regions at h
    by_cases hmv : maxVal < size
    · rw [if_pos hmv] at h
      simp at h
    · rw [if_neg hmv] at h
      unfold empty_cell at h
      by_cases h64 : 64 ≤ maxVal
      · rw [if_pos h64] at h
        simp at h
      · rw [if_neg h64] at h
        simp only at h
        rw [initConstraintsF_nil] at h
        simp only at h
        rcases Except.ok.inj h with rfl
        refine ⟨rfl, rfl, rfl, rfl, rfl, rfl, rfl, rfl, by omega, by omega⟩

/-- What the given-placement loop guarantees on success: lengths are kept;
cells before the window keep their solved flag, shrink as submasks and stay
nonzero; a `None` entry leaves its cell unsolved; a `Some v` entry (a single
bit) leaves its cell solved with grid mask exactly `v`. -/
theorem fromDigitsGo_spec (ds : List (Option Nat)) :
    ∀ (i0 : Nat) (b bOut : Board),
    fromDigitsGo ds i0 b = .ok bOut →
    (∀ v, some v ∈ ds → ∃ k, v = 2 ^ k) →
    (∀ k, i0 ≤ k → b.solvedDigits.getD k false = false) →
    i0 + ds.length ≤ b.grid.length →
    b.solvedDigits.length = b.grid.length →
    bOut.grid.length = b.grid.length
    ∧ bOut.solvedDigits.length = b.solvedDigits.length
    ∧ (∀ k, k < i0 →
        bOut.solvedDigits.getD k false = b.solvedDigits.getD k false
        ∧ bOut.grid.getD k 0 &&& b.grid.getD k 0 = bOut.grid.getD k 0
        ∧ (b.grid.getD k 0 ≠ 0 → bOut.grid.getD k 0 ≠ 0))
    ∧ (∀ off, off < ds.length → ds.getD off none = none →
        bOut.solvedDigits.getD (i0 + off) false = false)
    ∧ (∀ off v, off < ds.length → ds.getD off none = some v →
        bOut.solvedDigits.getD (i0 + off) false = true
        ∧ bOut.grid.getD (i0 + off) 0 = v) := by
  induction ds with
  | nil =>
    intro i0 b bOut h _ hfront _ _
    have hb : b = bOut := Except.ok.inj h
    subst hb
    refine ⟨rfl, rfl, fun k _ => ⟨rfl, Nat.and_self _, fun hz => hz⟩,
      fun off hoff _ => absurd hoff (by simp), fun off v hoff _ => absurd hoff (by simp)⟩
  | cons hd rest ih =>
    intro i0 b bOut h hpow hfront hlen hlen2
    cases hd with
    | none =>
      rw [fromDigitsGo_cons_none] at h
      have hres := ih (i0 + 1) b bOut h
        (fun v hv => hpow v (List.mem_cons_of_mem _ hv))
        (fun k hk => hfront k (by omega))
        (by simp only [List.length_cons] at hlen; omega)
        hlen2
      rcases hres with ⟨hg, hs, hprev, hnone, hsome⟩
      refine ⟨hg, hs, fun k hk => hprev k (by omega), ?_, ?_⟩
      · intro off hoff hoffv
        cases off with
        | zero =>
          rw [Nat.add_zero, (hprev i0 (by omega)).1]
          exact hfront i0 (Nat.le_refl _)
        | succ off' =>
          rw [show i0 + (off' + 1) = (i0 + 1) + off' from by omega]
          exact hnone off' (by simp only [List.length_cons] at hoff; omega) hoffv
      · intro off v hoff hoffv
        cases off with
        | zero => simp at hoffv
        | succ off' =>
          rw [show i0 + (off' + 1) = (i0 + 1) + off' from by omega]
          exact hsome off' v (by simp only [List.length_cons] at hoff; omega) hoffv
    | some d =>
      rw [fromDigitsGo_cons_some] at h
      by_cases hz : b.grid.getD i0 0 &&& d = 0
      · rw [if_pos hz] at h
        simp at h
      · rw [if_neg hz] at h
        cases hass : b.assign i0 d with
        | none =>
          rw [hass] at h
          simp at h
        | some p =>
          rw [hass] at h
          simp only at h
          rcases p with ⟨e, b1⟩
          obtain ⟨-, hslen1, hsne1, hsset1, hglen1, hgsub1, hgnz1, hgset1, -⟩ :=
            assign_pres hass
          have hi0g : i0 < b.grid.length := by
            simp only [List.length_cons] at hlen; omega
          have hi0s : i0 < b.solvedDigits.length := by rw [hlen2]; exact hi0g
          have hb1set : b1.grid.getD i0 0 = d := hgset1 (hfront i0 (Nat.le_refl _)) hi0g
          have hres := ih (i0 + 1) b1 bOut h
            (fun v hv => hpow v (List.mem_cons_of_mem _ hv))
            (fun k hk => by
              rw [hsne1 k (by omega)]
              exact hfront k (by omega))
            (by rw [hglen1]; simp only [List.length_cons] at hlen; omega)
            (by rw [hslen1, hglen1]; exact hlen2)
          rcases hres with ⟨hg, hs, hprev, hnone, hsome⟩
          have hd2 : ∃ k, d = 2 ^ k := hpow d (List.mem_cons_self _ _)
          refine ⟨by rw [hg, hglen1], by rw [hs, hslen1], ?_, ?_, ?_⟩
          · intro k hk
            obtain ⟨hpf, hpg, hpz⟩ := hprev k (by omega)
            refine ⟨by rw [hpf, hsne1 k (by omega)], ?_, ?_⟩
            · have h2 : b1.grid.getD k 0 &&& b.grid.getD k 0 = b1.grid.getD k 0 :=
                hgsub1 k (by omega)
              calc bOut.grid.getD k 0 &&& b.grid.getD k 0
                  = (bOut.grid.getD k 0 &&& b1.grid.getD k 0) &&& b.grid.getD k 0 := by
                    rw [hpg]
                _ = bOut.grid.getD k 0 &&& (b1.grid.getD k 0 &&& b.grid.getD k 0) :=
                    Nat.and_assoc ..
                _ = bOut.grid.getD k 0 := by rw [h2, hpg]
            · intro hbz
              exact hpz (hgnz1 k (by omega) hbz)
          · intro off hoff hoffv
            cases off with
            | zero => simp at hoffv
            | succ off' =>
              rw [show i0 + (off' + 1) = (i0 + 1) + off' from by omega]
              exact hnone off' (by simp only [List.length_cons] at hoff; omega) hoffv
          · intro off v hoff hoffv
            cases off with
            | zero =>
              rw [List.getD_cons_zero] at hoffv
              rcases Option.some.inj hoffv with rfl
              rw [Nat.add_zero]
              constructor
              · rw [(hprev i0 (by omega)).1]
                exact hsset1 hi0s
              · obtain ⟨-, hpg, hpz⟩ := hprev i0 (by omega)
                rw [hb1set] at hpg hpz
                rcases hd2 with ⟨k2, rfl⟩
                exact submask_singleton hpg (hpz (by positivity))
            | succ off' =>
              rw [show i0 + (off' + 1) = (i0 + 1) + off' from by omega]
              exact hsome off' v (by simp only [List.length_cons] at hoff; omega) hoffv

/-- The digit list `from_string` builds (named for reuse in the proofs). -/
def fromStringDigits (repr : List Char) : List (Option Nat) :=
  repr.map (fun c => (charToDigit c 16).map (fun d => 1 <<< d))

/-- The `max_val` fold of `from_string`. -/
def fromStringMaxVal (repr : List Char) : Nat :=
  repr.foldl
    (fun m c => match charToDigit c 16 with | some d => max m d | none => m)
    (natSqrt repr.length)

theorem from_string_eq (repr : List Char) :
    from_string repr =
      if natSqrt repr.length * natSqrt repr.length ≠ repr.length then
        .error .BadSize
      else
        Board.from_digits (natSqrt repr.length) (fromStringMaxVal repr)
          (fromStringDigits repr) := rfl

theorem fromStringDigits_getD {repr : List Char} {i : Nat} (h : i < repr.length) :
    (fromStringDigits repr).getD i none =
      (charToDigit (repr.getD i ' ') 16).map (fun d => 1 <<< d) := by
  unfold fromStringDigits
  rw [List.getD_eq_getElem?_getD, List.getElem?_map, List.getD_eq_getElem?_getD,
    List.getElem?_eq_getElem h]
  rfl

theorem fromStringDigits_pow (repr : List Char) :
    ∀ v, some v ∈ fromStringDigits repr → ∃ k, v = 2 ^ k := by
  intro v hv
  unfold fromStringDigits at hv
  rcases List.mem_map.mp hv with ⟨c, -, hc⟩
  rcases Option.map_eq_some'.mp hc with ⟨d, -, hd⟩
  exact ⟨d, by rw [← hd, Nat.one_shiftLeft]⟩

theorem try_from_str_eq (repr : List Char) :
    FPuzzles.try_from_str repr =
      if natSqrt repr.length * natSqrt repr.length ≠ repr.length then
        .error "Length of digits isn't right for a square sudoku."
      else fpParseGo (natSqrt repr.length) repr := rfl

theorem fpParseGo_cons (size : Nat) (c : Char) (rest : List Char) :
    fpParseGo size (c :: rest) =
      match fpParseChar size c with
      | .error e => .error e
      | .ok v =>
        match fpParseGo size rest with
        | .error e => .error e
        | .ok vs => .ok (v :: vs) := rfl

/-- Per-character behaviour of the `FPuzzles` grid parser: `.` and `0` map to
empty cells, and a populated cell comes exactly from a successful
`to_digit(size + 1)` parse of a character that is neither `.` nor `0`. -/
theorem fpParseGo_spec (size : Nat) (cs : List Char) :
    ∀ vs, fpParseGo size cs = .ok vs →
      vs.length = cs.length ∧
      ∀ i, i < cs.length →
        ((cs.getD i ' ' = '.' ∨ cs.getD i ' ' = '0') → vs.getD i none = none)
        ∧ (∀ d, vs.getD i none = some d →
            charToDigit (cs.getD i ' ') (size + 1) = some d
            ∧ cs.getD i ' ' ≠ '.' ∧ cs.getD i ' ' ≠ '0') := by
  induction cs with
  | nil =>
    intro vs h
    rcases Except.ok.inj h with rfl
    exact ⟨rfl, fun i hi => absurd hi (by simp)⟩
  | cons c rest ih =>
    intro vs h
    rw [fpParseGo_cons] at h
    cases hpc : fpParseChar size c with
    | error e =>
      rw [hpc] at h
      simp at h
    | ok v =>
      rw [hpc] at h
      simp only at h
      cases hrest : fpParseGo size rest with
      | error e =>
        rw [hrest] at h
        simp at h
      | ok vs' =>
        rw [hrest] at h
        simp only at h
        rcases Except.ok.inj h with rfl
        obtain ⟨hlen, hih⟩ := ih vs' hrest
        refine ⟨by simp [hlen], ?_⟩
        intro i hi
        cases i with
        | zero =>
          rw [List.getD_cons_zero, List.getD_cons_zero]
          unfold fpParseChar at hpc
          by_cases hdot : c = '.' ∨ c = '0'
          · rw [if_pos hdot] at hpc
            rcases Except.ok.inj hpc with rfl
            exact ⟨fun _ => rfl, fun d hd => absurd hd (by simp)⟩
          · rw [if_neg hdot] at hpc
            refine ⟨fun hcon => absurd hcon hdot, ?_⟩
            intro d hd
            cases hcd : charToDigit c (size + 1) with
            | none =>
              rw [hcd] at hpc
              simp at hpc
            | some d0 =>
              rw [hcd] at hpc
              simp only at hpc
              rcases Except.ok.inj hpc with rfl
              exact ⟨hd, fun h1 => hdot (Or.inl h1), fun h1 => hdot (Or.inr h1)⟩
        | succ i' =>
          rw [List.getD_cons_succ, List.getD_cons_succ]
          exact hih i' (by simp only [List.length_cons] at hi; omega)

/-- **C8** (counterexample).  The claim says `0` denotes an empty cell, so
`"0..."` — a board with no givens at all, trivially mutually consistent —
should parse like `"...."` does.  Instead `from_string` parses `0` as hex
digit 0, places the unused bit 0 as a given, and fails with `Contradiction`
(`empty_cell` never sets bit 0, so the possibility check fires). -/
theorem c8_zero_not_empty :
    from_string ['0', '.', '.', '.'] = .error .Contradiction
    ∧ (from_string ['.', '.', '.', '.']).isOk = true := ⟨by decide, by decide⟩

/-- **C8** (amended).  What the two parsers actually do with a compact string:
(1) when `from_string` succeeds, every character outside the 16-ary
`to_digit` range (`.` in particular) leaves its cell unsolved, and every
`to_digit`-parsable character `d` — including `0` — leaves its cell solved
with candidate mask exactly the single bit `2 ^ d`; (2) a string containing
`0` therefore never parses: bit 0 is a given no cell can accept; (3) in
`FPuzzles::try_from`, `.` and `0` both denote empty cells and every populated
cell comes from a character parsed in radix `size + 1` that is neither `.`
nor `0`. -/
theorem c8_parsing_amended (repr : List Char) :
    (∀ b, from_string repr = .ok b →
      ∀ i, i < repr.length →
        (charToDigit (repr.getD i ' ') 16 = none →
          b.solvedDigits.getD i false = false)
        ∧ (∀ d, charToDigit (repr.getD i ' ') 16 = some d →
            b.solvedDigits.getD i false = true ∧ b.grid.getD i 0 = 2 ^ d))
    ∧ ('0' ∈ repr → ∀ b, from_string repr ≠ .ok b)
    ∧ (∀ vs, FPuzzles.try_from_str repr = .ok vs →
        vs.length = repr.length ∧
        ∀ i, i < repr.length →
          ((repr.getD i ' ' = '.' ∨ repr.getD i ' ' = '0') → vs.getD i none = none)
          ∧ (∀ d, vs.getD i none = some d →
              charToDigit (repr.getD i ' ') (natSqrt repr.length + 1) = some d
              ∧ repr.getD i ' ' ≠ '.' ∧ repr.getD i ' ' ≠ '0')) := by
  have hdest : ∀ b, from_string repr = .ok b →
      ∃ b0, Board.new (natSqrt repr.length) (fromStringMaxVal repr) = .ok b0
        ∧ fromDigitsGo (fromStringDigits repr) 0 b0 = .ok b
        ∧ natSqrt repr.length * natSqrt repr.length = repr.length := by
    intro b h
    rw [from_string_eq] at h
    by_cases hsz : natSqrt repr.length * natSqrt repr.length ≠ repr.length
    · rw [if_pos hsz] at h
      simp at h
    · rw [if_neg hsz] at h
      unfold Board.from_digits at h
      cases hnew : Board.new (natSqrt repr.length) (fromStringMaxVal repr) with
      | error e =>
        rw [hnew] at h
        simp at h
      | ok b0 =>
        rw [hnew] at h
        simp only at h
        exact ⟨b0, rfl, h, by omega⟩
  refine ⟨?_, ?_, ?_⟩
  · intro b h i hi
    rcases hdest b h with ⟨b0, hnew, hgo, hsz⟩
    obtain ⟨hgrid0, hsolv0, -, -, -, -, -, -, -, -⟩ := Board.new_ok hnew
    have hlen0 : b0.grid.length = repr.length := by
      rw [hgrid0, List.length_replicate, hsz]
    have hdlen : (fromStringDigits repr).length = repr.length := by
      unfold fromStringDigits
      exact List.length_map ..
    obtain ⟨-, -, -, hnone, hsome⟩ := fromDigitsGo_spec (fromStringDigits repr) 0 b0 b hgo
      (fromStringDigits_pow repr)
      (fun k _ => by
        rw [hsolv0]
        rcases getD_replicate_or (natSqrt repr.length * natSqrt repr.length) k false false
          with h1 | h1 <;> exact h1)
      (by rw [hdlen, hlen0]; omega)
      (by rw [hsolv0, hgrid0, List.length_replicate, List.length_replicate])
    constructor
    · intro hcnone
      have hres := hnone i (by rw [hdlen]; exact hi)
        (by rw [fromStringDigits_getD hi, hcnone]; rfl)
      rw [Nat.zero_add] at hres
      exact hres
    · intro d hd
      have hres := hsome i (1 <<< d) (by rw [hdlen]; exact hi)
        (by rw [fromStringDigits_getD hi, hd]; rfl)
      rw [Nat.zero_add] at hres
      exact ⟨hres.1, by rw [hres.2, Nat.one_shiftLeft]⟩
  · intro h0 b h
    rcases hdest b h with ⟨b0, hnew, hgo, hsz⟩
    obtain ⟨hgrid0, -, -, -, -, -, -, -, -, -⟩ := Board.new_ok hnew
    have hmem : some 1 ∈ fromStringDigits repr := by
      have h1 : (fun c => (charToDigit c 16).map (fun d => 1 <<< d)) '0' = some 1 := rfl
      unfold fromStringDigits
      rw [← h1]
      exact List.mem_map_of_mem _ h0
    exact fromDigitsGo_no_bit0 (fromStringDigits repr) 0 b0 hmem
      (fromStringDigits_pow repr)
      (fun k => by
        rw [hgrid0]
        rcases getD_replicate_or (natSqrt repr.length * natSqrt repr.length) k
          ((1 <<< (fromStringMaxVal repr + 1)) - 2) 0 with h1 | h1
        · rw [h1]
          exact full_cell_and_one _
        · rw [h1]
          rfl)
      b hgo
  · intro vs h
    rw [try_from_str_eq] at h
    by_cases hsz : natSqrt repr.length * natSqrt repr.length ≠ repr.length
    · rw [if_pos hsz] at h
      simp at h
    · rw [if_neg hsz] at h
      exact fpParseGo_spec (natSqrt repr.length) repr vs h

/-- The board `from_string "1..."` constructs: `1` placed at cell 0,
eliminated from its row, column and region peers. -/
def c8Board : Board :=
  { usedDigits := 2,
    solvedDigits := [true, false, false, false],
    grid := [2, 4, 4, 6],
    meta := { size := 2, maxVal := 2,
              rows := [[0, 1], [2, 3]],
              columns := [[0, 2], [1, 3]],
              regions := [[0, 1], [2, 3]],
              constraints := [] } }

theorem c8_parsing_amended_witness :
    from_string ['1', '.', '.', '.'] = .ok c8Board
    ∧ (c8Board.solvedDigits.getD 0 false = true ∧ c8Board.grid.getD 0 0 = 2 ^ 1)
    ∧ c8Board.solvedDigits.getD 1 false = false
    ∧ FPuzzles.try_from_str ['1', '.', '.', '.'] = .ok [some 1, none, none, none]
    ∧ ([some 1, none, none, none] : List (Option Nat)).getD 1 none = none :=
  ⟨by decide,
   ((c8_parsing_amended ['1', '.', '.', '.']).1 c8Board (by decide) 0 (by decide)).2 1
     (by decide),
   ((c8_parsing_amended ['1', '.', '.', '.']).1 c8Board (by decide) 1 (by decide)).1
     (by decide),
   by decide,
   (((c8_parsing_amended ['1', '.', '.', '.']).2.2 [some 1, none, none, none]
       (by decide)).2 1 (by decide)).1 (Or.inl (by decide))⟩

/-! ### C1: assign clears the value from every peer -/

theorem possibility_false_iff (b : Board) (idx g : Nat) :
    b.possibility idx g = false ↔ b.grid.getD idx 0 &&& g = 0 := by
  unfold Board.possibility
  simp [bne_eq_false_iff_eq]

theorem and_two_pow_ne_zero {a k : Nat} (h : a &&& 2 ^ k ≠ 0) : 2 ^ k &&& a = 2 ^ k := by
  have htb : a.testBit k = true := by
    by_contra hf
    apply h
    apply Nat.eq_of_testBit_eq
    intro i
    rw [Nat.testBit_and, Nat.zero_testBit, Nat.testBit_two_pow]
    by_cases hik : k = i
    · subst hik
      have hf' : a.testBit k = false := by simpa using hf
      simp [hf']
    · simp [hik]
  apply Nat.eq_of_testBit_eq
  intro i
  rw [Nat.testBit_and, Nat.testBit_two_pow]
  by_cases hik : k = i
  · subst hik
    simp [htb]
  · simp [hik]

theorem elimLoop_clears {value idx : Nat} :
    ∀ (cells : List Nat) (e0 : Elimination) (g : List Nat) (e2 : Elimination) (g2 : List Nat),
      elimLoop value idx cells e0 g = some (e2, g2) →
      ∀ c ∈ cells, c ≠ idx → g2.getD c 0 &&& value = 0 := by
  intro cells
  induction cells with
  | nil =>
    intro e0 g e2 g2 h c hc
    exact absurd hc (List.not_mem_nil c)
  | cons c0 rest ih =>
    intro e0 g e2 g2 h c hc hne
    unfold elimLoop at h
    by_cases hc0 : c0 = idx
    · rw [if_pos hc0] at h
      rcases List.mem_cons.mp hc with rfl | hmem
      · exact absurd hc0 hne
      · exact ih e0 g e2 g2 h c hmem hne
    · rw [if_neg hc0] at h
      rcases he : eliminate c0 value g with _ | ⟨eA, gA⟩
      · rw [he] at h
        simp at h
      · rw [he] at h
        rcases List.mem_cons.mp hc with rfl | hmem
        · have h0 : gA.getD c 0 &&& value = 0 := eliminate_clears he
          have hpres := elimLoop_gridPres rest _ gA e2 g2 h
          exact and_zero_of_submask (hpres.1.2 c) h0
        · exact ih _ gA e2 g2 h c hmem hne

theorem regionElim_clears {value idx : Nat} :
    ∀ (regions : List (List Nat)) (e0 : Elimination) (g : List Nat)
      (e2 : Elimination) (g2 : List Nat),
      regionElim value idx regions e0 g = some (e2, g2) →
      (∀ r1, r1 ∈ regions → ∀ r2, r2 ∈ regions → idx ∈ r1 → idx ∈ r2 → r1 = r2) →
      ∀ r, r ∈ regions → idx ∈ r → ∀ c, c ∈ r → c ≠ idx → g2.getD c 0 &&& value = 0 := by
  intro regions
  induction regions with
  | nil =>
    intro e0 g e2 g2 h huniq r hr
    exact absurd hr (List.not_mem_nil r)
  | cons r0 rest ih =>
    intro e0 g e2 g2 h huniq r hr hidxr c hc hne
    unfold regionElim at h
    by_cases h0 : idx ∈ r0
    · rw [if_pos h0] at h
      have hr0 : r = r0 := huniq r hr r0 (List.mem_cons_self _ _) hidxr h0
      subst hr0
      exact elimLoop_clears r e0 g e2 g2 h c hc hne
    · rw [if_neg h0] at h
      rcases List.mem_cons.mp hr with rfl | hmem
      · exact absurd hidxr h0
      · exact ih e0 g e2 g2 h
          (fun r1 h1 r2 h2 =>
            huniq r1 (List.mem_cons_of_mem _ h1) r2 (List.mem_cons_of_mem _ h2))
          r hmem hidxr c hc hne

/-- Peer-clearing across the whole `assign` pipeline: row peers, column
peers and (given that regions do not overlap at `idx`) region peers of `idx`
all lose `value`. -/
theorem assignPipeline_clears {bp : Board} {idx value : Nat} {e : Elimination} {b2 : Board}
    (h : assignPipeline bp idx value = some (e, b2))
    (huniq : ∀ r1, r1 ∈ bp.meta.regions → ∀ r2, r2 ∈ bp.meta.regions →
      idx ∈ r1 → idx ∈ r2 → r1 = r2) :
    (∀ c, c ∈ bp.meta.rows.getD (idx / bp.meta.size) [] → c ≠ idx →
      b2.grid.getD c 0 &&& value = 0)
    ∧ (∀ c, c ∈ bp.meta.columns.getD (idx - bp.meta.size * (idx / bp.meta.size)) [] →
      c ≠ idx → b2.grid.getD c 0 &&& value = 0)
    ∧ (∀ r, r ∈ bp.meta.regions → idx ∈ r → ∀ c, c ∈ r → c ≠ idx →
      b2.grid.getD c 0 &&& value = 0) := by
  unfold assignPipeline at h
  rcases h1 : elimLoop value idx (bp.meta.rows.getD (idx / bp.meta.size) []) .Same bp.grid
    with _ | ⟨e1, g1⟩
  · rw [h1] at h
    simp at h
  rw [h1] at h
  simp only at h
  rcases h2 : elimLoop value idx
      (bp.meta.columns.getD (idx - bp.meta.size * (idx / bp.meta.size)) []) e1 g1
    with _ | ⟨e2, g2⟩
  · rw [h2] at h
    simp at h
  rw [h2] at h
  simp only at h
  rcases h3 : regionElim value idx bp.meta.regions e2 g2 with _ | ⟨e3, g3⟩
  · rw [h3] at h
    simp at h
  rw [h3] at h
  simp only at h
  rcases h4 : constraintsLoop idx value bp.meta.size bp.meta.constraints e3 g3
    with _ | ⟨e4, g4⟩
  · rw [h4] at h
    simp at h
  rw [h4] at h
  simp only [Option.some.injEq, Prod.mk.injEq] at h
  have hb2 : b2.grid = g4 := by rw [← h.2]
  have p2 := (elimLoop_gridPres _ e1 g1 e2 g2 h2).1
  have p3 := (regionElim_gridPres bp.meta.regions e2 g2 e3 g3 h3).1
  have p4 := (constraintsLoop_gridPres bp.meta.constraints e3 g3 e4 g4 h4).1
  have p43 : GridLE g4 g2 := GridLE_trans p4 p3
  have p42 : GridLE g4 g1 := GridLE_trans p43 p2
  rw [hb2]
  refine ⟨?_, ?_, ?_⟩
  · intro c hc hne
    exact and_zero_of_submask (p42.2 c) (elimLoop_clears _ .Same bp.grid e1 g1 h1 c hc hne)
  · intro c hc hne
    exact and_zero_of_submask (p43.2 c) (elimLoop_clears _ e1 g1 e2 g2 h2 c hc hne)
  · intro r hr hidxr c hc hne
    exact and_zero_of_submask (p4.2 c)
      (regionElim_clears bp.meta.regions e2 g2 e3 g3 h3 huniq r hr hidxr c hc hne)

/-- Peer-clearing for `Board::assign` itself (both the solved and the
unsolved entry paths run the same pipeline). -/
theorem assign_clears {b : Board} {idx value : Nat} {e : Elimination} {b2 : Board}
    (h : b.assign idx value = some (e, b2))
    (huniq : ∀ r1, r1 ∈ b.meta.regions → ∀ r2, r2 ∈ b.meta.regions →
      idx ∈ r1 → idx ∈ r2 → r1 = r2) :
    (∀ c, c ∈ b.meta.rows.getD (idx / b.meta.size) [] → c ≠ idx →
      b2.grid.getD c 0 &&& value = 0)
    ∧ (∀ c, c ∈ b.meta.columns.getD (idx - b.meta.size * (idx / b.meta.size)) [] →
      c ≠ idx → b2.grid.getD c 0 &&& value = 0)
    ∧ (∀ r, r ∈ b.meta.regions → idx ∈ r → ∀ c, c ∈ r → c ≠ idx →
      b2.grid.getD c 0 &&& value = 0) := by
  unfold Board.assign at h
  by_cases hs : b.solvedDigits.getD idx false
  · rw [if_pos hs] at h
    exact assignPipeline_clears h huniq
  · rw [if_neg hs] at h
    simp only at h
    by_cases hcnt : popcount (b.usedDigits ||| value) > b.meta.size
    · rw [if_pos hcnt] at h
      simp at h
    · rw [if_neg hcnt] at h
      exact @assignPipeline_clears
        { b with grid := b.grid.set idx value,
                 solvedDigits := b.solvedDigits.set idx true,
                 usedDigits := b.usedDigits ||| value } idx value e b2 h huniq

theorem mem_canonicalRows {size : Nat} {r : List Nat} (h : r ∈ canonicalRows size) :
    ∃ q, q < size ∧ r = rowIndices size q := by
  unfold canonicalRows at h
  rcases List.mem_map.mp h with ⟨q, hq, hrq⟩
  exact ⟨q, List.mem_range.mp hq, hrq.symm⟩

theorem mem_canonicalColumns {size : Nat} {r : List Nat} (h : r ∈ canonicalColumns size) :
    ∃ cc, cc < size ∧ r = colIndices size cc := by
  unfold canonicalColumns at h
  rcases List.mem_map.mp h with ⟨cc, hcc, hrc⟩
  exact ⟨cc, List.mem_range.mp hcc, hrc.symm⟩

theorem rowIndices_div {size q i : Nat} (h : i ∈ rowIndices size q) :
    0 < size ∧ i / size = q := by
  unfold rowIndices at h
  rcases List.mem_map.mp h with ⟨c, hc, hic⟩
  have hcs : c < size := List.mem_range.mp hc
  have hpos : 0 < size := by omega
  refine ⟨hpos, ?_⟩
  rw [← hic, show q * size + c = c + size * q from by ring,
    Nat.add_mul_div_left c q hpos, Nat.div_eq_of_lt hcs]
  omega

theorem colIndices_mod {size cc i : Nat} (h : i ∈ colIndices size cc) (hcc : cc < size) :
    i % size = cc := by
  unfold colIndices at h
  rcases List.mem_map.mp h with ⟨rr, _, hic⟩
  rw [← hic, show rr * size = size * rr from Nat.mul_comm .., Nat.mul_add_mod,
    Nat.mod_eq_of_lt hcc]

theorem canonicalRows_getD {size q : Nat} (hq : q < size) :
    (canonicalRows size).getD q [] = rowIndices size q := by
  unfold canonicalRows
  rw [List.getD_eq_getElem?_getD, List.getElem?_map, List.getElem?_range hq]
  rfl

theorem canonicalColumns_getD {size cc : Nat} (hcc : cc < size) :
    (canonicalColumns size).getD cc [] = colIndices size cc := by
  unfold canonicalColumns
  rw [List.getD_eq_getElem?_getD, List.getElem?_map, List.getElem?_range hcc]
  rfl

/-- **C1**: after a successful `assign(i, v)` with a single-bit mask `v`
still possible at the valid index `i`, cell `i` holds exactly the candidate
bit `v` and no peer (same row, same column, or same region) can still take
`v`.  Hypotheses scope the claim to boards the engine actually builds:
canonical rows and columns for `meta.size`, a `size²` grid, regions that do
not overlap at `i`, and a well-formed solved flag at `i` (a solved cell
holds at most one candidate). -/
theorem c1_assign_peers (k : Nat) {b : Board} {i v : Nat} {e : Elimination} {b2 : Board}
    (hassign : b.assign i v = some (e, b2))
    (hrows : b.meta.rows = canonicalRows b.meta.size)
    (hcols : b.meta.columns = canonicalColumns b.meta.size)
    (huniq : ∀ r1, r1 ∈ b.meta.regions → ∀ r2, r2 ∈ b.meta.regions →
      i ∈ r1 → i ∈ r2 → r1 = r2)
    (hwf : b.solvedDigits.getD i false = true → popcount (b.grid.getD i 0) ≤ 1)
    (hv : v = 2 ^ k)
    (hi : i < b.grid.length)
    (hposs : b.possibility i v = true) :
    b2.grid.getD i 0 = v
    ∧ ∀ j, j ≠ i →
        ((∃ r, r ∈ b.meta.rows ∧ i ∈ r ∧ j ∈ r)
          ∨ (∃ r, r ∈ b.meta.columns ∧ i ∈ r ∧ j ∈ r)
          ∨ (∃ r, r ∈ b.meta.regions ∧ i ∈ r ∧ j ∈ r)) →
        b2.possibility j v = false := by
  have hposs' : b.grid.getD i 0 &&& v ≠ 0 := by
    unfold Board.possibility at hposs
    simpa [bne_iff_ne] using hposs
  obtain ⟨hclr_row, hclr_col, hclr_reg⟩ := assign_clears hassign huniq
  constructor
  · by_cases hs : b.solvedDigits.getD i false = true
    · obtain ⟨-, -, -, -, -, -, -, -, hkeep⟩ := assign_pres hassign
      have h1 : 2 ^ k &&& b.grid.getD i 0 = 2 ^ k :=
        and_two_pow_ne_zero (by rw [← hv]; exact hposs')
      have heq : b.grid.getD i 0 = 2 ^ k := by
        by_contra hne
        have hlt := popcount_lt_of_submask_ne h1 (fun hc => hne hc.symm)
        rw [popcount_two_pow] at hlt
        have hle := hwf hs
        omega
      rw [hkeep hs, heq, hv]
    · obtain ⟨-, -, -, -, -, -, -, hset, -⟩ := assign_pres hassign
      exact hset (by simpa using hs) hi
  · intro j hne hpeer
    rw [possibility_false_iff]
    rcases hpeer with ⟨r, hrmem, hir, hjr⟩ | ⟨r, hrmem, hir, hjr⟩ | ⟨r, hrmem, hir, hjr⟩
    · rw [hrows] at hrmem
      rcases mem_canonicalRows hrmem with ⟨q, hq, rfl⟩
      obtain ⟨hspos, hdiv⟩ := rowIndices_div hir
      apply hclr_row j ?_ hne
      rw [hrows, hdiv, canonicalRows_getD hq]
      exact hjr
    · rw [hcols] at hrmem
      rcases mem_canonicalColumns hrmem with ⟨cc, hcc, rfl⟩
      have hmod : i % b.meta.size = cc := colIndices_mod hir hcc
      apply hclr_col j ?_ hne
      have hsub : i - b.meta.size * (i / b.meta.size) = i % b.meta.size := by
        have hmd := Nat.mod_add_div i b.meta.size
        omega
      rw [hcols, hsub, hmod, canonicalColumns_getD hcc]
      exact hjr
    · exact hclr_reg r hrmem hir j hjr hne

/-- Fresh 2x2 board, and the board `assign 0 2` turns it into. -/
def c1Start : Board :=
  { usedDigits := 0,
    solvedDigits := [false, false, false, false],
    grid := [6, 6, 6, 6],
    meta := { size := 2, maxVal := 2,
              rows := [[0, 1], [2, 3]],
              columns := [[0, 2], [1, 3]],
              regions := [[0, 1], [2, 3]],
              constraints := [] } }

def c1End : Board :=
  { usedDigits := 2,
    solvedDigits := [true, false, false, false],
    grid := [2, 4, 4, 6],
    meta := { size := 2, maxVal := 2,
              rows := [[0, 1], [2, 3]],
              columns := [[0, 2], [1, 3]],
              regions := [[0, 1], [2, 3]],
              constraints := [] } }

theorem c1_assign_peers_witness :
    c1Start.assign 0 2 = some (.Eliminated, c1End)
    ∧ c1End.grid.getD 0 0 = 2
    ∧ c1End.possibility 1 2 = false
    ∧ c1End.possibility 2 2 = false :=
  ⟨by decide,
   (@c1_assign_peers 1 c1Start 0 2 .Eliminated c1End (by decide) (by decide) (by decide)
     (by decide) (by decide) (by decide) (by decide) (by decide)).1,
   (@c1_assign_peers 1 c1Start 0 2 .Eliminated c1End (by decide) (by decide) (by decide)
     (by decide) (by decide) (by decide) (by decide) (by decide)).2 1 (by decide)
     (Or.inl ⟨[0, 1], by decide, by decide, by decide⟩),
   (@c1_assign_peers 1 c1Start 0 2 .Eliminated c1End (by decide) (by decide) (by decide)
     (by decide) (by decide) (by decide) (by decide) (by decide)).2 2 (by decide)
     (Or.inr (Or.inl ⟨[0, 2], by decide, by decide, by decide⟩))⟩

/-! ### C4: the shape of the deduce loop -/

/-- The loop exactly as the claim words it: run naked singles to a fixed
point, one pass of hidden singles; if that pass eliminated anything restart
the loop, otherwise exit.  No naked-tuples call appears. -/
def deduceClaimedLoopF : Nat → Board → Option Board
  | 0, _ => none
  | fuel + 1, b =>
    match nsFixF (totalBits b.grid + 1) b with
    | none => none
    | some b1 =>
      match b1.hidden_singles with
      | none => none
      | some (e, b2) =>
        if e = .Eliminated then deduceClaimedLoopF fuel b2 else some b2

def deduceClaimed (b : Board) : Option Board :=
  deduceClaimedLoopF (totalBits b.grid + 1) b

theorem deduceLoopF_eq_claimed : ∀ (fuel : Nat) (b : Board),
    deduceLoopF fuel b = deduceClaimedLoopF fuel b := by
  intro fuel
  induction fuel with
  | zero =>
    intro b
    rfl
  | succ f ih =>
    intro b
    unfold deduceLoopF deduceClaimedLoopF
    cases hns : nsFixF (totalBits b.grid + 1) b with
    | none => rfl
    | some b1 =>
      simp only
      cases hhs : b1.hidden_singles with
      | none => rfl
      | some p =>
        rcases p with ⟨e, b2⟩
        cases e with
        | Same => rfl
        | Eliminated => simp [ih]

/-- **C4** (amended, current engine).  The `deduce` of
src/sudoku_engine/src/board.rs is exactly the loop the claim describes —
naked singles to a fixed point, one hidden-singles pass, restart on
elimination, exit otherwise (solved or not: the solved check only precedes
an unconditional break) — and in particular never invokes naked tuples. -/
theorem c4_deduce_is_claimed_loop (b : Board) : Board.deduce b = deduceClaimed b := by
  unfold Board.deduce deduceClaimed
  exact deduceLoopF_eq_claimed (totalBits b.grid + 1) b

/-- A 4x4 board whose row 0 starts with the naked pair `{1, 2}`: hidden and
naked singles find nothing, but `naked_tuples(2)` eliminates across row 0
and then cascades. -/
def c4Board : Board :=
  { usedDigits := 0,
    solvedDigits := List.replicate 16 false,
    grid := [6, 6, 30, 30] ++ List.replicate 12 30,
    meta := { size := 4, maxVal := 4,
              rows := canonicalRows 4,
              columns := canonicalColumns 4,
              regions := [[0, 1, 4, 5], [2, 3, 6, 7], [8, 9, 12, 13], [10, 11, 14, 15]],
              constraints := [] } }

/-- **C4** (counterexample, legacy engine).  The claim also cites the
`deduce` of src/sudoku_engine/src/types/board.rs, but that version still
invokes `naked_tuples(2)` in its loop: on `c4Board` the claimed loop (and
the current `deduce`) change nothing, while the legacy `deduce` eliminates
the naked pair `{1, 2}` from the rest of row 0 and the cascade spreads
(cells 2 and 3 drop to mask 24). -/
theorem c4_legacy_deduce_runs_tuples :
    Board.deduce_legacy c4Board ≠ deduceClaimed c4Board := by decide

/-! ### C2: the parallel counter agrees with the solution iterator

Plan: (1) the helper's return-plus-sent total equals the pure recursion
`countRecF` at every fuel; (2) `countRecF` is fuel-stable at `muB + 1` on
well-formed boards, because every guess turns a multi-candidate cell into a
singleton and nothing ever widens a cell; (3) each iterator step conserves
`stackCount` minus the yields, so draining the stack counts exactly
`countRec`; a potential function bounds the fuel the drain needs. -/

/-- Well-formed solved flags: a cell marked solved holds at most one
candidate.  Every board the engine constructs satisfies this (`assign` only
marks a cell after writing a single-bit value into it). -/
def WfB (b : Board) : Prop :=
  ∀ k, b.solvedDigits.getD k false = true → popcount (b.grid.getD k 0) ≤ 1

theorem countMulti_le : ∀ (g2 g : List Nat), g2.length = g.length →
    (∀ k, 2 ≤ popcount (g2.getD k 0) → 2 ≤ popcount (g.getD k 0)) →
    g2.countP (fun c => 2 ≤ popcount c) ≤ g.countP (fun c => 2 ≤ popcount c) := by
  intro g2
  induction g2 with
  | nil =>
    intro g _ _
    simp [List.countP_nil]
  | cons x xs ih =>
    intro g hlen hdom
    cases g with
    | nil => simp at hlen
    | cons y ys =>
      rw [List.countP_cons, List.countP_cons]
      have htail := ih ys (by simpa using hlen) (fun k hk => by
        have := hdom (k + 1)
        rw [List.getD_cons_succ, List.getD_cons_succ] at this
        exact this hk)
      have hhead := hdom 0
      rw [List.getD_cons_zero, List.getD_cons_zero] at hhead
      by_cases hx : 2 ≤ popcount x
      · have hy := hhead hx
        simp only [decide_eq_true (by exact hx), decide_eq_true (by exact hy)]
        omega
      · have : (decide (2 ≤ popcount x)) = false := by
          simp [hx]
        rw [this]
        have : (if false = true then 1 else 0) = 0 := rfl
        by_cases hy : 2 ≤ popcount y <;> simp [hy] <;> omega

theorem countMulti_lt : ∀ (g2 g : List Nat) (i : Nat), g2.length = g.length →
    (∀ k, 2 ≤ popcount (g2.getD k 0) → 2 ≤ popcount (g.getD k 0)) →
    i < g.length → 2 ≤ popcount (g.getD i 0) → ¬ 2 ≤ popcount (g2.getD i 0) →
    g2.countP (fun c => 2 ≤ popcount c) < g.countP (fun c => 2 ≤ popcount c) := by
  intro g2
  induction g2 with
  | nil =>
    intro g i hlen _ hi
    rw [← hlen] at hi
    simp at hi
  | cons x xs ih =>
    intro g i hlen hdom hi hgi hg2i
    cases g with
    | nil => simp at hlen
    | cons y ys =>
      rw [List.countP_cons, List.countP_cons]
      have htaille := countMulti_le xs ys (by simpa using hlen) (fun k hk => by
        have := hdom (k + 1)
        rw [List.getD_cons_succ, List.getD_cons_succ] at this
        exact this hk)
      have hheadle : (if decide (2 ≤ popcount x) = true then 1 else 0) ≤
          (if decide (2 ≤ popcount y) = true then 1 else 0) := by
        have hhead := hdom 0
        rw [List.getD_cons_zero, List.getD_cons_zero] at hhead
        by_cases hx : 2 ≤ popcount x
        · simp [hx, hhead hx]
        · simp [hx]
      cases i with
      | zero =>
        rw [List.getD_cons_zero] at hgi
        rw [List.getD_cons_zero] at hg2i
        have h1 : (decide (2 ≤ popcount y)) = true := by simp [hgi]
        have h2 : (decide (2 ≤ popcount x)) = false := by simp [hg2i]
        rw [h1, h2]
        norm_num
        omega
      | succ i' =>
        have htaillt := ih ys i' (by simpa using hlen)
          (fun k hk => by
            have := hdom (k + 1)
            rw [List.getD_cons_succ, List.getD_cons_succ] at this
            exact this hk)
          (by simpa using hi)
          (by rw [List.getD_cons_succ] at hgi; exact hgi)
          (by rw [List.getD_cons_succ] at hg2i; exact hg2i)
        omega

theorem countMulti_pos : ∀ (g : List Nat) (i : Nat), i < g.length →
    2 ≤ popcount (g.getD i 0) → 1 ≤ g.countP (fun c => 2 ≤ popcount c) := by
  intro g
  induction g with
  | nil =>
    intro i hi
    simp at hi
  | cons y ys ih =>
    intro i hi hgi
    rw [List.countP_cons]
    cases i with
    | zero =>
      rw [List.getD_cons_zero] at hgi
      simp [hgi]
    | succ i' =>
      rw [List.getD_cons_succ] at hgi
      have := ih i' (by simpa using hi) hgi
      omega

/-- A successful `assign` of a single-bit value keeps the flags well-formed,
keeps the grid length, never turns a settled cell into a multi-candidate
cell, and keeps the metadata. -/
theorem assign_wf_mu {b : Board} {idx value : Nat} {e : Elimination} {b2 : Board}
    (h : b.assign idx value = some (e, b2)) (hval : popcount value ≤ 1) :
    (WfB b → WfB b2)
    ∧ b2.grid.length = b.grid.length
    ∧ (∀ k, 2 ≤ popcount (b2.grid.getD k 0) → 2 ≤ popcount (b.grid.getD k 0))
    ∧ b2.meta = b.meta := by
  obtain ⟨hmeta, hslen, hsne, hsset, hglen, hgsub, hgnz, hgset, hgkeep⟩ := assign_pres h
  refine ⟨?_, hglen, ?_, hmeta⟩
  · intro hw k hk2
    by_cases hkidx : k = idx
    · subst hkidx
      by_cases horig : b.solvedDigits.getD k false = true
      · rw [hgkeep horig]
        exact hw k horig
      · by_cases hkl : k < b.grid.length
        · rw [hgset (by simpa using horig) hkl]
          exact hval
        · rw [getD_of_length_le (by rw [hglen]; omega) 0, popcount_zero]
          omega
    · rw [hsne k hkidx] at hk2
      exact (popcount_le_of_submask (hgsub k hkidx)).trans (hw k hk2)
  · intro k hk2
    by_cases hkidx : k = idx
    · subst hkidx
      by_cases horig : b.solvedDigits.getD k false = true
      · rw [hgkeep horig] at hk2
        exact hk2
      · by_cases hkl : k < b.grid.length
        · rw [hgset (by simpa using horig) hkl] at hk2
          omega
        · rw [getD_of_length_le (by rw [hglen]; omega) 0, popcount_zero] at hk2
          omega
    · exact hk2.trans (popcount_le_of_submask (hgsub k hkidx))

/-- Assigning a single-bit value to an unsolved in-bounds multi-candidate
cell strictly decreases the number of multi-candidate cells. -/
theorem assign_mu_strict {b : Board} {idx value : Nat} {e : Elimination} {b2 : Board}
    (h : b.assign idx value = some (e, b2)) (hval : popcount value ≤ 1)
    (hflag : b.solvedDigits.getD idx false = false) (hidx : idx < b.grid.length)
    (hbig : 2 ≤ popcount (b.grid.getD idx 0)) :
    muB b2 < muB b := by
  obtain ⟨-, hglen, hdom, -⟩ := assign_wf_mu h hval
  obtain ⟨-, -, -, -, -, -, -, hgset, -⟩ := assign_pres h
  unfold muB
  apply countMulti_lt b2.grid b.grid idx hglen hdom hidx hbig
  rw [hgset hflag hidx]
  omega

/-- What every phase of `deduce` preserves: well-formed flags, grid length,
no new multi-candidate cells, and the shared metadata.  (`deduce` only ever
assigns single-bit values: the naked-singles snapshot keeps exactly the
one-candidate cells, and hidden singles assigns `1 << digit`.) -/
def DeduceStep (b2 b : Board) : Prop :=
  (WfB b → WfB b2)
  ∧ b2.grid.length = b.grid.length
  ∧ (∀ k, 2 ≤ popcount (b2.grid.getD k 0) → 2 ≤ popcount (b.grid.getD k 0))
  ∧ b2.meta = b.meta

theorem DeduceStep_refl (b : Board) : DeduceStep b b :=
  ⟨fun hw => hw, rfl, fun _ hk => hk, rfl⟩

theorem DeduceStep_trans {b3 b2 b : Board} (h32 : DeduceStep b3 b2)
    (h21 : DeduceStep b2 b) : DeduceStep b3 b :=
  ⟨fun hw => h32.1 (h21.1 hw), h32.2.1.trans h21.2.1,
   fun k hk => h21.2.2.1 k (h32.2.2.1 k hk), h32.2.2.2.trans h21.2.2.2⟩

theorem assign_deduceStep {b : Board} {idx value : Nat} {e : Elimination} {b2 : Board}
    (h : b.assign idx value = some (e, b2)) (hval : popcount value ≤ 1) :
    DeduceStep b2 b :=
  (assign_wf_mu h hval)

theorem nsGo_deduceStep : ∀ (l : List (Nat × Nat)) (e : Elimination) (b : Board)
    (e2 : Elimination) (b2 : Board),
    (∀ p ∈ l, popcount p.2 = 1) → nsGo l e b = some (e2, b2) → DeduceStep b2 b := by
  intro l
  induction l with
  | nil =>
    intro e b e2 b2 _ h
    simp only [nsGo, Option.some.injEq, Prod.mk.injEq] at h
    rw [← h.2]
    exact DeduceStep_refl b
  | cons p rest ih =>
    intro e b e2 b2 hp h
    rcases p with ⟨i, d⟩
    unfold nsGo at h
    rcases ha : b.assign i d with _ | ⟨eA, bA⟩
    · rw [ha] at h
      simp at h
    · rw [ha] at h
      have hd1 : popcount d = 1 := hp (i, d) (List.mem_cons_self _ _)
      exact DeduceStep_trans (ih _ bA e2 b2 (fun q hq => hp q (List.mem_cons_of_mem _ hq)) h)
        (assign_deduceStep ha (by omega))

theorem naked_singles_deduceStep {b : Board} {e2 : Elimination} {b2 : Board}
    (h : b.naked_singles = some (e2, b2)) : DeduceStep b2 b := by
  unfold Board.naked_singles at h
  apply nsGo_deduceStep _ .Same b e2 b2 ?_ h
  intro p hp
  have := List.mem_filter.mp hp
  have hq := this.2
  simp only [Bool.and_eq_true, beq_iff_eq] at hq
  exact hq.1

theorem hsDigitsGo_deduceStep : ∀ (ds : List Nat) (cells : List (Nat × Nat))
    (e : Elimination) (b : Board) (e2 : Elimination) (b2 : Board),
    hsDigitsGo ds cells e b = some (e2, b2) → DeduceStep b2 b := by
  intro ds
  induction ds with
  | nil =>
    intro cells e b e2 b2 h
    simp only [hsDigitsGo, Option.some.injEq, Prod.mk.injEq] at h
    rw [← h.2]
    exact DeduceStep_refl b
  | cons d rest ih =>
    intro cells e b e2 b2 h
    unfold hsDigitsGo at h
    simp only at h
    rcases hf : cells.filter (fun p => p.2 &&& (1 <<< d) == (1 <<< d)) with _ | ⟨p0, ps⟩
    · rw [hf] at h
      simp at h
    · rw [hf] at h
      rcases ps with _ | ⟨p1, ps2⟩
      · rcases p0 with ⟨idx, w⟩
        simp only at h
        by_cases hz : b.grid.getD idx 0 &&& (1 <<< d) = 0
        · rw [if_pos hz] at h
          simp at h
        · rw [if_neg hz] at h
          rcases ha : b.assign idx (1 <<< d) with _ | ⟨eA, bA⟩
          · rw [ha] at h
            simp at h
          · rw [ha] at h
            have hval : popcount (1 <<< d) ≤ 1 := by
              rw [Nat.one_shiftLeft, popcount_two_pow]
            exact DeduceStep_trans (ih cells _ bA e2 b2 h) (assign_deduceStep ha hval)
      · simp only at h
        exact ih cells e b e2 b2 h

theorem hsUnitsGo_deduceStep : ∀ (us : List (List Nat)) (e : Elimination) (b : Board)
    (e2 : Elimination) (b2 : Board),
    hsUnitsGo us e b = some (e2, b2) → DeduceStep b2 b := by
  intro us
  induction us with
  | nil =>
    intro e b e2 b2 h
    simp only [hsUnitsGo, Option.some.injEq, Prod.mk.injEq] at h
    rw [← h.2]
    exact DeduceStep_refl b
  | cons u rest ih =>
    intro e b e2 b2 h
    unfold hsUnitsGo at h
    rcases hh : hsHelper b u with _ | ⟨eA, bA⟩
    · rw [hh] at h
      simp at h
    · rw [hh] at h
      exact DeduceStep_trans (ih _ bA e2 b2 h) (hsDigitsGo_deduceStep _ _ .Same b eA bA hh)

theorem hidden_singles_deduceStep {b : Board} {e2 : Elimination} {b2 : Board}
    (h : b.hidden_singles = some (e2, b2)) : DeduceStep b2 b :=
  hsUnitsGo_deduceStep _ .Same b e2 b2 h

theorem nsFixF_deduceStep : ∀ (fuel : Nat) (b b2 : Board),
    nsFixF fuel b = some b2 → DeduceStep b2 b := by
  intro fuel
  induction fuel with
  | zero =>
    intro b b2 h
    simp [nsFixF] at h
  | succ f ih =>
    intro b b2 h
    unfold nsFixF at h
    rcases hns : b.naked_singles with _ | ⟨eA, bA⟩
    · rw [hns] at h
      simp at h
    · rw [hns] at h
      cases eA with
      | Same =>
        simp only [Option.some.injEq] at h
        rw [← h]
        exact naked_singles_deduceStep hns
      | Eliminated =>
        simp only at h
        exact DeduceStep_trans (ih bA b2 h) (naked_singles_deduceStep hns)

theorem deduceLoopF_deduceStep : ∀ (fuel : Nat) (b b2 : Board),
    deduceLoopF fuel b = some b2 → DeduceStep b2 b := by
  intro fuel
  induction fuel with
  | zero =>
    intro b b2 h
    simp [deduceLoopF] at h
  | succ f ih =>
    intro b b2 h
    unfold deduceLoopF at h
    rcases hns : nsFixF (totalBits b.grid + 1) b with _ | bA
    · rw [hns] at h
      simp at h
    · rw [hns] at h
      simp only at h
      rcases hhs : bA.hidden_singles with _ | ⟨eB, bB⟩
      · rw [hhs] at h
        simp at h
      · rw [hhs] at h
        cases eB with
        | Eliminated =>
          simp only at h
          exact DeduceStep_trans (DeduceStep_trans (ih bB b2 h)
            (hidden_singles_deduceStep hhs)) (nsFixF_deduceStep _ b bA hns)
        | Same =>
          simp only [Option.some.injEq] at h
          rw [← h]
          exact DeduceStep_trans (hidden_singles_deduceStep hhs)
            (nsFixF_deduceStep _ b bA hns)

theorem deduce_deduceStep {b b1 : Board} (h : Board.deduce b = some b1) :
    DeduceStep b1 b :=
  deduceLoopF_deduceStep _ b b1 h

theorem mem_enumFrom_facts : ∀ (l : List Nat) (n i d : Nat), (i, d) ∈ l.enumFrom n →
    n ≤ i ∧ i - n < l.length ∧ l.getD (i - n) 0 = d := by
  intro l
  induction l with
  | nil =>
    intro n i d h
    simp at h
  | cons x xs ih =>
    intro n i d h
    rw [List.enumFrom_cons] at h
    rcases List.mem_cons.mp h with heq | hmem
    · have h1 : i = n ∧ d = x := by
        have := Prod.mk.injEq i d n x ▸ heq
        exact ⟨congrArg Prod.fst heq, congrArg Prod.snd heq⟩
      obtain ⟨rfl, rfl⟩ := h1
      refine ⟨Nat.le_refl _, ?_, ?_⟩
      · simp [Nat.sub_self]
      · rw [Nat.sub_self, List.getD_cons_zero]
    · obtain ⟨h1, h2, h3⟩ := ih (n + 1) i d hmem
      refine ⟨by omega, by simp only [List.length_cons]; omega, ?_⟩
      rw [show i - n = (i - (n + 1)) + 1 from by omega, List.getD_cons_succ]
      exact h3

theorem mem_enum_facts {l : List Nat} {i d : Nat} (h : (i, d) ∈ l.enum) :
    i < l.length ∧ l.getD i 0 = d := by
  have hf := mem_enumFrom_facts l 0 i d (by simpa [List.enum] using h)
  rw [Nat.sub_zero] at hf
  exact ⟨hf.2.1, hf.2.2⟩

theorem nigGo_some : ∀ (l : List (Nat × Nat)) (count : Nat) (ret : Option Nat) (i : Nat),
    nigGo l count ret = some i →
    ret = some i ∨ ∃ d, (i, d) ∈ l ∧ popcount d ≠ 1 := by
  intro l
  induction l with
  | nil =>
    intro count ret i h
    exact Or.inl h
  | cons p rest ih =>
    intro count ret i h
    rcases p with ⟨j, d⟩
    unfold nigGo at h
    by_cases h1 : popcount d = 1
    · rw [if_pos h1] at h
      rcases ih _ _ _ h with hr | ⟨d', hd'⟩
      · exact Or.inl hr
      · exact Or.inr ⟨d', List.mem_cons_of_mem _ hd'.1, hd'.2⟩
    · rw [if_neg h1] at h
      by_cases h2 : popcount d < count
      · rw [if_pos h2] at h
        rcases ih _ _ _ h with hr | ⟨d', hd'⟩
        · have hij : j = i := Option.some.inj hr
          subst hij
          exact Or.inr ⟨d, List.mem_cons_self _ _, h1⟩
        · exact Or.inr ⟨d', List.mem_cons_of_mem _ hd'.1, hd'.2⟩
      · rw [if_neg h2] at h
        rcases ih _ _ _ h with hr | ⟨d', hd'⟩
        · exact Or.inl hr
        · exact Or.inr ⟨d', List.mem_cons_of_mem _ hd'.1, hd'.2⟩

/-- `next_idx_to_guess` never picks a single-candidate cell, and always an
in-range one. -/
theorem nig_spec {b : Board} {i : Nat} (h : b.next_idx_to_guess = some i) :
    i < b.grid.length ∧ popcount (b.grid.getD i 0) ≠ 1 := by
  unfold Board.next_idx_to_guess at h
  rcases nigGo_some _ _ _ _ h with hr | ⟨d, hmem, hd⟩
  · simp at hr
  · obtain ⟨hlt, hget⟩ := mem_enum_facts hmem
    exact ⟨hlt, by rw [hget]; exact hd⟩

theorem mem_iter_ones {b : Board} {idx d : Nat} (h : d ∈ b.iter_ones idx) :
    (1 <<< d) &&& b.grid.getD idx 0 ≠ 0 := by
  unfold Board.iter_ones at h
  have hm := List.mem_filter.mp h
  simpa [bne_iff_ne] using hm.2

theorem iter_ones_length_le (b : Board) (idx : Nat) :
    (b.iter_ones idx).length ≤ b.meta.maxVal := by
  unfold Board.iter_ones
  have h1 := List.length_filter_le
    (fun i => (1 <<< i) &&& b.grid.getD idx 0 != 0) (digitList b.meta.maxVal)
  have h2 : (digitList b.meta.maxVal).length = b.meta.maxVal := by
    unfold digitList
    rw [List.length_map, List.length_range]
  omega

theorem helperPairF_succ (f : Nat) (b : Board) :
    helperPairF (f + 1) b =
      match b.deduce with
      | none => (0, 0)
      | some b1 =>
        if b1.solved then (1, 0)
        else
          match b1.next_idx_to_guess with
          | none => (0, 0)
          | some idx =>
            let rs := (b1.iter_ones idx).map (fun v =>
              match b1.assign idx (1 <<< v) with
              | none => (0, 0)
              | some (_, b2) => helperPairF f b2)
            let cnt := (rs.map (fun p => p.1)).sum
            let snt := (rs.map (fun p => p.2)).sum
            if cnt > 500 then (0, snt + cnt) else (cnt, snt) := rfl

theorem countRecF_succ (f : Nat) (b : Board) :
    countRecF (f + 1) b =
      match b.deduce with
      | none => 0
      | some b1 =>
        if b1.solved then 1
        else
          match b1.next_idx_to_guess with
          | none => 0
          | some idx =>
            ((b1.iter_ones idx).map (fun v =>
              match b1.assign idx (1 <<< v) with
              | none => 0
              | some (_, b2) => countRecF f b2)).sum := rfl

theorem sum_pair_split : ∀ (l : List (Nat × Nat)),
    (l.map (fun p => p.1)).sum + (l.map (fun p => p.2)).sum
      = (l.map (fun p => p.1 + p.2)).sum := by
  intro l
  induction l with
  | nil => rfl
  | cons p rest ih =>
    simp only [List.map_cons, List.sum_cons]
    omega

/-- The helper's returned count plus everything it sent equals the pure
recursive count: the 500-flush moves weight between the two components but
conserves their sum. -/
theorem helper_total : ∀ (f : Nat) (b : Board),
    (helperPairF f b).1 + (helperPairF f b).2 = countRecF f b := by
  intro f
  induction f with
  | zero =>
    intro b
    rfl
  | succ f ih =>
    intro b
    rw [helperPairF_succ, countRecF_succ]
    cases hd : b.deduce with
    | none => rfl
    | some b1 =>
      simp only
      by_cases hs : b1.solved = true
      · rw [if_pos hs, if_pos hs]
        rfl
      · rw [if_neg hs, if_neg hs]
        cases hn : b1.next_idx_to_guess with
        | none => rfl
        | some idx =>
          simp only
          have hterm : ∀ v : Nat,
              ((match b1.assign idx (1 <<< v) with
                | none => ((0 : Nat), (0 : Nat))
                | some (_, b2) => helperPairF f b2).1
               + (match b1.assign idx (1 <<< v) with
                  | none => ((0 : Nat), (0 : Nat))
                  | some (_, b2) => helperPairF f b2).2)
              = (match b1.assign idx (1 <<< v) with
                 | none => 0
                 | some (_, b2) => countRecF f b2) := by
            intro v
            cases ha : b1.assign idx (1 <<< v) with
            | none => rfl
            | some p =>
              rcases p with ⟨e2, b2⟩
              simpa using ih b2
          have hXY :
              (((b1.iter_ones idx).map (fun v =>
                  match b1.assign idx (1 <<< v) with
                  | none => ((0 : Nat), (0 : Nat))
                  | some (_, b2) => helperPairF f b2)).map (fun p => p.1)).sum
              + (((b1.iter_ones idx).map (fun v =>
                  match b1.assign idx (1 <<< v) with
                  | none => ((0 : Nat), (0 : Nat))
                  | some (_, b2) => helperPairF f b2)).map (fun p => p.2)).sum
              = ((b1.iter_ones idx).map (fun v =>
                  match b1.assign idx (1 <<< v) with
                  | none => 0
                  | some (_, b2) => countRecF f b2)).sum := by
            rw [sum_pair_split, List.map_map]
            apply congrArg List.sum
            apply List.map_congr_left
            intro v _
            exact hterm v
          by_cases hflush :
              (((b1.iter_ones idx).map (fun v =>
                  match b1.assign idx (1 <<< v) with
                  | none => ((0 : Nat), (0 : Nat))
                  | some (_, b2) => helperPairF f b2)).map (fun p => p.1)).sum > 500
          · rw [if_pos hflush]
            simp only
            omega
          · rw [if_neg hflush]
            simp only
            omega

/-- Fuel congruence: on a well-formed board the recursion bottoms out after
at most `muB` guesses (each guess settles one multi-candidate cell and never
creates a new one), so any two sufficient fuels compute the same count. -/
theorem countRecF_congr : ∀ (n f1 f2 : Nat) (b : Board),
    f1 + f2 ≤ n → muB b + 1 ≤ f1 → muB b + 1 ≤ f2 → WfB b →
    countRecF f1 b = countRecF f2 b := by
  intro n
  induction n with
  | zero =>
    intro f1 f2 b hn h1
    omega
  | succ n ih =>
    intro f1 f2 b hn h1 h2 hw
    obtain ⟨f1', rfl⟩ : ∃ f1', f1 = f1' + 1 := ⟨f1 - 1, by omega⟩
    obtain ⟨f2', rfl⟩ : ∃ f2', f2 = f2' + 1 := ⟨f2 - 1, by omega⟩
    rw [countRecF_succ, countRecF_succ]
    cases hd : b.deduce with
    | none => rfl
    | some b1 =>
      simp only
      by_cases hs : b1.solved = true
      · rw [if_pos hs, if_pos hs]
      · rw [if_neg hs, if_neg hs]
        cases hn1 : b1.next_idx_to_guess with
        | none => rfl
        | some idx =>
          simp only
          apply congrArg List.sum
          apply List.map_congr_left
          intro v hv
          obtain ⟨hds_wf, hds_len, hds_dom, -⟩ := deduce_deduceStep hd
          have hw1 : WfB b1 := hds_wf hw
          have hmu1 : muB b1 ≤ muB b := countMulti_le _ _ hds_len hds_dom
          obtain ⟨hidx_lt, hidx_ne1⟩ := nig_spec hn1
          have hbit := mem_iter_ones hv
          have hcell_ne : b1.grid.getD idx 0 ≠ 0 := fun hc => hbit (by rw [hc, Nat.and_zero])
          have hcell_ge1 : 1 ≤ popcount (b1.grid.getD idx 0) := popcount_pos hcell_ne
          have hcell_ge2 : 2 ≤ popcount (b1.grid.getD idx 0) := by omega
          have hflag : b1.solvedDigits.getD idx false = false := by
            cases hfv : b1.solvedDigits.getD idx false
            · rfl
            · have := hw1 idx hfv
              omega
          cases ha : b1.assign idx (1 <<< v) with
          | none => rfl
          | some p =>
            rcases p with ⟨e2, b2⟩
            simp only
            have hval : popcount (1 <<< v) ≤ 1 := by
              rw [Nat.one_shiftLeft, popcount_two_pow]
            obtain ⟨hwf2', -, -, -⟩ := assign_wf_mu ha hval
            have hw2 : WfB b2 := hwf2' hw1
            have hmu2 : muB b2 < muB b1 := assign_mu_strict ha hval hflag hidx_lt hcell_ge2
            exact ih f1' f2' b2 (by omega) (by omega) (by omega) hw2

theorem countRecF_stable {f : Nat} {b : Board} (hf : muB b + 1 ≤ f) (hw : WfB b) :
    countRecF f b = countRec b := by
  unfold countRec
  exact countRecF_congr (f + (muB b + 1)) f (muB b + 1) b (by omega) hf (Nat.le_refl _) hw

/-- One guessing level: the recursive counts of the children (at any fuel of
at least `muB b0`) coincide with the canonical per-child counts. -/
theorem guess_sum_eq {b0 b1 : Board} {i F : Nat}
    (hd : Board.deduce b0 = some b1) (hw : WfB b0)
    (hnig : b1.next_idx_to_guess = some i) (hF : muB b0 ≤ F) :
    ((b1.iter_ones i).map (fun v =>
        match b1.assign i (1 <<< v) with
        | none => 0
        | some (_, b2) => countRecF F b2)).sum
      = ((b1.iter_ones i).map (fun v => childCount b1 i (1 <<< v))).sum := by
  apply congrArg List.sum
  apply List.map_congr_left
  intro v hv
  obtain ⟨hds_wf, hds_len, hds_dom, -⟩ := deduce_deduceStep hd
  have hw1 : WfB b1 := hds_wf hw
  have hmu1 : muB b1 ≤ muB b0 := countMulti_le _ _ hds_len hds_dom
  obtain ⟨hidx_lt, hidx_ne1⟩ := nig_spec hnig
  have hbit := mem_iter_ones hv
  have hcell_ne : b1.grid.getD i 0 ≠ 0 := fun hc => hbit (by rw [hc, Nat.and_zero])
  have hcell_ge1 : 1 ≤ popcount (b1.grid.getD i 0) := popcount_pos hcell_ne
  have hcell_ge2 : 2 ≤ popcount (b1.grid.getD i 0) := by omega
  have hflag : b1.solvedDigits.getD i false = false := by
    cases hfv : b1.solvedDigits.getD i false
    · rfl
    · have := hw1 i hfv
      omega
  have hval : popcount (1 <<< v) ≤ 1 := by
    rw [Nat.one_shiftLeft, popcount_two_pow]
  unfold childCount
  rw [show boardOps.assign b1 i (1 <<< v) = (b1.assign i (1 <<< v)).map (fun p => p.2)
    from rfl]
  cases ha : b1.assign i (1 <<< v) with
  | none => rfl
  | some p =>
    rcases p with ⟨e2, b2⟩
    simp only [Option.map_some']
    obtain ⟨hwf2', -, -, -⟩ := assign_wf_mu ha hval
    have hw2 : WfB b2 := hwf2' hw1
    have hmu2 : muB b2 < muB b1 := assign_mu_strict ha hval hflag hidx_lt hcell_ge2
    exact countRecF_stable (by omega) hw2

/-- The potential of a frame whose board has at most `m` multi-candidate
cells and at most `M` pending guesses per frame: enough iterator-loop
iterations to exhaust the whole subtree below such a frame. -/
def psi (M : Nat) : Nat → Nat
  | 0 => 1
  | m + 1 => 1 + M * (1 + psi M m)

theorem psi_succ (M m : Nat) : psi M (m + 1) = 1 + M * (1 + psi M m) := rfl

theorem psi_mono (M : Nat) : ∀ (b a : Nat), a ≤ b → psi M a ≤ psi M b := by
  intro b
  induction b with
  | zero =>
    intro a h
    rw [Nat.le_zero.mp h]
  | succ b ih =>
    intro a h
    cases a with
    | zero =>
      rw [psi_succ]
      show (1 : Nat) ≤ _
      exact Nat.le_add_right 1 _
    | succ a' =>
      rw [psi_succ M b, psi_succ M a']
      have h2 : M * (1 + psi M a') ≤ M * (1 + psi M b) :=
        Nat.mul_le_mul_left M (by
          have h1 : psi M a' ≤ psi M b := ih a' (by omega)
          omega)
      exact Nat.add_le_add_left h2 1

/-- Loop-iteration potential of one stack frame. -/
def framePhi (fr : Frame Board Nat) : Nat :=
  1 + fr.2.2.length * (1 + psi fr.1.meta.maxVal (muB fr.1))

def stackPhi (st : List (Frame Board Nat)) : Nat := (st.map framePhi).sum

theorem framePhi_pos (fr : Frame Board Nat) : 1 ≤ framePhi fr :=
  Nat.le_add_right 1 _

theorem framePhi_cons (b : Board) (i v : Nat) (vs : List Nat) :
    framePhi (b, i, v :: vs) =
      framePhi (b, i, vs) + (1 + psi b.meta.maxVal (muB b)) := by
  unfold framePhi
  simp only [List.length_cons]
  ring

theorem stackCount_cons (fr : Frame Board Nat) (st : List (Frame Board Nat)) :
    stackCount (fr :: st) = frameCount fr + stackCount st := rfl

theorem stackPhi_cons (fr : Frame Board Nat) (st : List (Frame Board Nat)) :
    stackPhi (fr :: st) = framePhi fr + stackPhi st := rfl

/-- Invariant of every frame the iterator ever stacks: a well-formed board;
single-bit pending guesses; when guesses remain, the guess cell is a genuine
in-range multi-candidate cell; and no more pending guesses than digits. -/
def FrameInv (fr : Frame Board Nat) : Prop :=
  WfB fr.1
  ∧ (∀ v, v ∈ fr.2.2 → ∃ d, v = 2 ^ d)
  ∧ (fr.2.2 ≠ [] → 2 ≤ popcount (fr.1.grid.getD fr.2.1 0) ∧ fr.2.1 < fr.1.grid.length)
  ∧ fr.2.2.length ≤ fr.1.meta.maxVal

def StackInv (st : List (Frame Board Nat)) : Prop := ∀ fr, fr ∈ st → FrameInv fr

theorem pushed_frame_inv {b0 b1 : Board} {j : Nat}
    (hd : Board.deduce b0 = some b1) (hw : WfB b0)
    (hnig : b1.next_idx_to_guess = some j) :
    FrameInv (b1, j, (boardOps.guesses b1 j).reverse) := by
  obtain ⟨hds_wf, -, -, -⟩ := deduce_deduceStep hd
  have hw1 : WfB b1 := hds_wf hw
  refine ⟨hw1, ?_, ?_, ?_⟩
  · intro v hv
    rw [List.mem_reverse] at hv
    have hv2 : v ∈ (b1.iter_ones j).map (fun d => 1 <<< d) := hv
    rcases List.mem_map.mp hv2 with ⟨d, -, hdv⟩
    exact ⟨d, by rw [← hdv, Nat.one_shiftLeft]⟩
  · intro hne
    have hne2 : b1.iter_ones j ≠ [] := by
      intro hc
      apply hne
      show ((b1.iter_ones j).map (fun d => 1 <<< d)).reverse = []
      rw [hc]
      rfl
    rcases List.exists_mem_of_ne_nil _ hne2 with ⟨d, hd'⟩
    have hbit := mem_iter_ones hd'
    have hcell_ne : b1.grid.getD j 0 ≠ 0 := fun hc => hbit (by rw [hc, Nat.and_zero])
    obtain ⟨hlt, hne1⟩ := nig_spec hnig
    have h1 := popcount_pos hcell_ne
    exact ⟨show 2 ≤ popcount (b1.grid.getD j 0) by omega, hlt⟩
  · show ((b1.iter_ones j).map (fun d => 1 <<< d)).reverse.length ≤ b1.meta.maxVal
    rw [List.length_reverse, List.length_map]
    exact iter_ones_length_le b1 j

theorem framePhi_le_psi {b2 : Board} {j M m : Nat}
    (hmeta : b2.meta.maxVal = M) (hmu : muB b2 < m) :
    framePhi (b2, j, (boardOps.guesses b2 j).reverse) ≤ psi M m := by
  obtain ⟨m', rfl⟩ : ∃ m', m = m' + 1 := ⟨m - 1, by omega⟩
  rw [psi_succ]
  unfold framePhi
  simp only
  have hlenle : ((boardOps.guesses b2 j).reverse).length ≤ M := by
    show ((b2.iter_ones j).map (fun d => 1 <<< d)).reverse.length ≤ M
    rw [List.length_reverse, List.length_map, ← hmeta]
    exact iter_ones_length_le b2 j
  have hps : psi b2.meta.maxVal (muB b2) ≤ psi M m' := by
    rw [hmeta]
    exact psi_mono M m' (muB b2) (by omega)
  have hmul : ((boardOps.guesses b2 j).reverse).length *
      (1 + psi b2.meta.maxVal (muB b2)) ≤ M * (1 + psi M m') :=
    Nat.mul_le_mul hlenle (Nat.add_le_add_left hps 1)
  exact Nat.add_le_add_left hmul 1

theorem childCount_some {b : Board} {i v : Nat} {e : Elimination} {b1 : Board}
    (ha : b.assign i v = some (e, b1)) : childCount b i v = countRec b1 := by
  unfold childCount
  rw [show boardOps.assign b i v = (b.assign i v).map (fun p => p.2) from rfl, ha]
  rfl

theorem childCount_none {b : Board} {i v : Nat} (ha : b.assign i v = none) :
    childCount b i v = 0 := by
  unfold childCount
  rw [show boardOps.assign b i v = (b.assign i v).map (fun p => p.2) from rfl, ha]
  rfl

theorem countRec_deduce_none {b : Board} (hd : Board.deduce b = none) : countRec b = 0 := by
  rw [show countRec b = countRecF (muB b + 1) b from rfl, countRecF_succ, hd]

theorem countRec_solved {b b1 : Board} (hd : Board.deduce b = some b1)
    (hs : Board.solved b1 = true) : countRec b = 1 := by
  rw [show countRec b = countRecF (muB b + 1) b from rfl, countRecF_succ, hd]
  simp only
  rw [if_pos hs]

theorem countRec_nig_none {b b1 : Board} (hd : Board.deduce b = some b1)
    (hs : Board.solved b1 = false) (hn : b1.next_idx_to_guess = none) :
    countRec b = 0 := by
  rw [show countRec b = countRecF (muB b + 1) b from rfl, countRecF_succ, hd]
  simp only
  rw [if_neg (by rw [hs]; exact Bool.false_ne_true), hn]

theorem frameCount_solved {b : Board} {i : Nat} {vs : List Nat}
    (hs : Board.solved b = true) : frameCount (b, i, vs) = 1 := by
  unfold frameCount
  simp only
  rw [if_pos hs]

theorem frameCount_unsolved_nil {b : Board} {i : Nat} (hs : Board.solved b = false) :
    frameCount (b, i, []) = 0 := by
  unfold frameCount
  simp only
  rw [if_neg (by rw [hs]; exact Bool.false_ne_true)]
  rfl

theorem frameCount_unsolved_cons {b : Board} {i v : Nat} {vs : List Nat}
    (hs : Board.solved b = false) :
    frameCount (b, i, v :: vs) = childCount b i v + frameCount (b, i, vs) := by
  unfold frameCount
  simp only
  rw [if_neg (by rw [hs]; exact Bool.false_ne_true),
    if_neg (by rw [hs]; exact Bool.false_ne_true), List.map_cons, List.sum_cons]

/-- The frame pushed after a successful guess carries exactly the pure count
of the guessed child. -/
theorem frameCount_guess {b0 b1 : Board} {j : Nat}
    (hd : Board.deduce b0 = some b1) (hw : WfB b0)
    (hnig : b1.next_idx_to_guess = some j)
    (hns : Board.solved b1 = false) :
    frameCount (b1, j, (boardOps.guesses b1 j).reverse) = countRec b0 := by
  unfold frameCount
  simp only
  rw [if_neg (by rw [hns]; exact Bool.false_ne_true)]
  have hL : (((boardOps.guesses b1 j).reverse).map (fun v => childCount b1 j v)).sum
      = ((b1.iter_ones j).map (fun v => childCount b1 j (1 <<< v))).sum := by
    show ((((b1.iter_ones j).map (fun d => 1 <<< d)).reverse).map
        (fun v => childCount b1 j v)).sum = _
    rw [List.map_reverse, List.sum_reverse, List.map_map]
    rfl
  rw [hL, show countRec b0 = countRecF (muB b0 + 1) b0 from rfl, countRecF_succ, hd]
  simp only
  rw [if_neg (by rw [hns]; exact Bool.false_ne_true), hnig]
  exact (guess_sum_eq hd hw hnig (Nat.le_refl _)).symm

theorem initStack_inv {b : Board} (hw : WfB b) : StackInv (initStack boardOps b) := by
  intro fr hfr
  unfold initStack at hfr
  cases hd : boardOps.deduce b with
  | none =>
    rw [hd] at hfr
    simp at hfr
  | some b1 =>
    rw [hd] at hfr
    simp only at hfr
    cases hn : boardOps.next_idx_to_guess b1 with
    | none =>
      rw [hn] at hfr
      simp only at hfr
      by_cases hs : boardOps.solved b1 = true
      · rw [if_pos hs] at hfr
        rcases List.mem_singleton.mp hfr with rfl
        refine ⟨(deduce_deduceStep (show Board.deduce b = some b1 from hd)).1 hw,
          ?_, ?_, ?_⟩
        · intro v hv
          simp at hv
        · intro hne
          exact absurd rfl hne
        · show ([] : List Nat).length ≤ b1.meta.maxVal
          simp
      · rw [if_neg hs] at hfr
        simp at hfr
    | some i =>
      rw [hn] at hfr
      simp only at hfr
      rcases List.mem_singleton.mp hfr with rfl
      exact pushed_frame_inv (show Board.deduce b = some b1 from hd) hw
        (show b1.next_idx_to_guess = some i from hn)

theorem initStack_count {b : Board} (hw : WfB b) :
    stackCount (initStack boardOps b) = countRec b := by
  unfold initStack
  cases hd : boardOps.deduce b with
  | none =>
    rw [countRec_deduce_none (show Board.deduce b = none from hd)]
    rfl
  | some b1 =>
    simp only
    cases hn : boardOps.next_idx_to_guess b1 with
    | none =>
      simp only
      by_cases hs : boardOps.solved b1 = true
      · rw [if_pos hs, countRec_solved (show Board.deduce b = some b1 from hd) hs]
        show frameCount (b1, 0, []) + 0 = 1
        rw [frameCount_solved hs]
      · rw [if_neg hs]
        have hsf : Board.solved b1 = false := by
          cases hv : Board.solved b1
          · rfl
          · exact absurd hv hs
        rw [countRec_nig_none (show Board.deduce b = some b1 from hd) hsf
          (show b1.next_idx_to_guess = none from hn)]
        rfl
    | some i =>
      simp only
      by_cases hs : Board.solved b1 = true
      · rw [countRec_solved (show Board.deduce b = some b1 from hd) hs]
        show frameCount (b1, i, (boardOps.guesses b1 i).reverse) + 0 = 1
        rw [frameCount_solved hs]
      · have hsf : Board.solved b1 = false := by
          cases hv : Board.solved b1
          · rfl
          · exact absurd hv hs
        show frameCount (b1, i, (boardOps.guesses b1 i).reverse) + 0 = countRec b
        rw [frameCount_guess (show Board.deduce b = some b1 from hd) hw
          (show b1.next_idx_to_guess = some i from hn) hsf]
        omega

/-- Draining the iterator with enough fuel yields exactly `stackCount`
solutions: every loop iteration either yields one solution and removes one
counted unit, or silently removes a zero-count unit, and the potential
`stackPhi` strictly decreases. -/
theorem drain_count : ∀ (fuel : Nat) (st : List (Frame Board Nat)),
    StackInv st → stackPhi st ≤ fuel →
    (drain boardOps fuel st).length = stackCount st := by
  intro fuel
  induction fuel with
  | zero =>
    intro st hinv hphi
    cases st with
    | nil => rfl
    | cons fr rest =>
      exfalso
      have := framePhi_pos fr
      rw [stackPhi_cons] at hphi
      omega
  | succ fuel ih =>
    intro st hinv hphi
    cases st with
    | nil => rfl
    | cons fr rest =>
      rcases fr with ⟨bb, i, vs⟩
      rw [drain_succ, step_cons]
      rw [stackPhi_cons] at hphi
      have hinv_head : FrameInv (bb, i, vs) := hinv _ (List.mem_cons_self _ _)
      have hinv_rest : StackInv rest := fun fr hfr => hinv _ (List.mem_cons_of_mem _ hfr)
      obtain ⟨hwfb, hpow, hcell, hlenM⟩ := hinv_head
      simp only at hwfb hpow hcell hlenM
      by_cases hs : boardOps.solved bb = true
      · rw [if_pos hs]
        simp only
        rw [List.length_cons, stackCount_cons, frameCount_solved hs,
          ih rest hinv_rest (by have := framePhi_pos (bb, i, vs); omega)]
        omega
      · rw [if_neg hs]
        have hsf : Board.solved bb = false := by
          cases hv : Board.solved bb
          · rfl
          · exact absurd hv hs
        cases vs with
        | nil =>
          simp only
          rw [stackCount_cons, frameCount_unsolved_nil hsf,
            ih rest hinv_rest (by have := framePhi_pos (bb, i, ([] : List Nat)); omega)]
          omega
        | cons v vs2 =>
          simp only
          obtain ⟨hcell2, hidx_lt⟩ := hcell (by simp)
          have hflag : bb.solvedDigits.getD i false = false := by
            cases hfv : bb.solvedDigits.getD i false
            · rfl
            · have := hwfb i hfv
              omega
          rcases hpow v (List.mem_cons_self _ _) with ⟨d, rfl⟩
          have hval : popcount (2 ^ d) ≤ 1 := by rw [popcount_two_pow]
          have hinv2 : StackInv ((bb, i, vs2) :: rest) := by
            intro fr hfr
            rcases List.mem_cons.mp hfr with rfl | hmem
            · refine ⟨hwfb, fun w hw' => hpow w (List.mem_cons_of_mem _ hw'),
                fun _ => hcell (by simp), ?_⟩
              show vs2.length ≤ bb.meta.maxVal
              simp only [List.length_cons] at hlenM
              omega
            · exact hinv _ (List.mem_cons_of_mem _ hmem)
          have hphi2 : stackPhi ((bb, i, vs2) :: rest)
              + (1 + psi bb.meta.maxVal (muB bb)) ≤ fuel + 1 := by
            rw [stackPhi_cons]
            rw [framePhi_cons] at hphi
            omega
          cases ha : boardOps.assign bb i (2 ^ d) with
          | none =>
            simp only
            have haB : Board.assign bb i (2 ^ d) = none := by
              have hmap : (Board.assign bb i (2 ^ d)).map (fun p => p.2) = none := ha
              cases hv : Board.assign bb i (2 ^ d) with
              | none => rfl
              | some p =>
                rw [hv] at hmap
                simp at hmap
            have hlhs := ih ((bb, i, vs2) :: rest) hinv2 (by omega)
            rw [hlhs, stackCount_cons, stackCount_cons,
              frameCount_unsolved_cons hsf, childCount_none haB]
            omega
          | some b1 =>
            simp only
            have haB : ∃ e, Board.assign bb i (2 ^ d) = some (e, b1) := by
              have hmap : (Board.assign bb i (2 ^ d)).map (fun p => p.2) = some b1 := ha
              cases hv : Board.assign bb i (2 ^ d) with
              | none =>
                rw [hv] at hmap
                simp at hmap
              | some p =>
                rw [hv] at hmap
                rcases p with ⟨e, b1'⟩
                simp only [Option.map_some', Option.some.injEq] at hmap
                exact ⟨e, by rw [hmap]⟩
            rcases haB with ⟨e, haB⟩
            obtain ⟨hwf1', -, -, hmeta1⟩ := assign_wf_mu haB hval
            have hwf1 : WfB b1 := hwf1' hwfb
            have hmu1 : muB b1 < muB bb := assign_mu_strict haB hval hflag hidx_lt hcell2
            have hchild : childCount bb i (2 ^ d) = countRec b1 := childCount_some haB
            cases hd2 : boardOps.deduce b1 with
            | none =>
              simp only
              have hlhs := ih ((bb, i, vs2) :: rest) hinv2 (by omega)
              rw [hlhs, stackCount_cons, stackCount_cons, frameCount_unsolved_cons hsf,
                hchild, countRec_deduce_none (show Board.deduce b1 = none from hd2)]
              omega
            | some b2 =>
              simp only
              have hd2B : Board.deduce b1 = some b2 := hd2
              obtain ⟨-, hdlen2, hddom2, hmeta2⟩ := deduce_deduceStep hd2B
              by_cases hs2 : boardOps.solved b2 = true
              · rw [if_pos hs2]
                simp only
                have hlhs := ih ((bb, i, vs2) :: rest) hinv2 (by omega)
                rw [List.length_cons, hlhs, stackCount_cons, stackCount_cons,
                  frameCount_unsolved_cons hsf, hchild, countRec_solved hd2B hs2]
                omega
              · rw [if_neg hs2]
                have hs2f : Board.solved b2 = false := by
                  cases hv2 : Board.solved b2
                  · rfl
                  · exact absurd hv2 hs2
                cases hn2 : boardOps.next_idx_to_guess b2 with
                | none =>
                  simp only
                  have hlhs := ih ((bb, i, vs2) :: rest) hinv2 (by omega)
                  rw [hlhs, stackCount_cons, stackCount_cons, frameCount_unsolved_cons hsf,
                    hchild, countRec_nig_none hd2B hs2f
                      (show b2.next_idx_to_guess = none from hn2)]
                  omega
                | some j =>
                  simp only
                  have hn2B : b2.next_idx_to_guess = some j := hn2
                  have hpush_inv : StackInv ((b2, j, (boardOps.guesses b2 j).reverse)
                      :: (bb, i, vs2) :: rest) := by
                    intro fr hfr
                    rcases List.mem_cons.mp hfr with rfl | hmem
                    · exact pushed_frame_inv hd2B hwf1 hn2B
                    · exact hinv2 _ hmem
                  have hmetaM : b2.meta.maxVal = bb.meta.maxVal := by
                    rw [hmeta2, hmeta1]
                  have hmu2 : muB b2 ≤ muB b1 := countMulti_le _ _ hdlen2 hddom2
                  have hpushphi : framePhi (b2, j, (boardOps.guesses b2 j).reverse)
                      ≤ psi bb.meta.maxVal (muB bb) :=
                    framePhi_le_psi hmetaM (by omega)
                  have hphi3 : stackPhi ((b2, j, (boardOps.guesses b2 j).reverse)
                      :: (bb, i, vs2) :: rest) ≤ fuel := by
                    rw [stackPhi_cons]
                    omega
                  have hlhs := ih _ hpush_inv hphi3
                  rw [hlhs, stackCount_cons, stackCount_cons, stackCount_cons,
                    frameCount_unsolved_cons hsf, hchild,
                    frameCount_guess hd2B hwf1 hn2B hs2f]
                  omega

/-- **C2**: with a never-cancelled token, the total a receiver of
`solution_count` accumulates — the helper's subtree sends plus the final
residual send, `solution_count_total` — equals the number of solutions the
`SolutionIterator` enumeration yields on the same board.  Hypotheses: the
board's solved flags are well-formed (`WfB`, true of every board the engine
builds), and the iterator is given enough loop iterations (`stackPhi` of its
initial stack, a computable bound). -/
theorem c2_solution_count (b : Board) (fuel : Nat) (hwf : WfB b)
    (hfuel : stackPhi (initStack boardOps b) ≤ fuel) :
    solution_count_total b = (solList boardOps fuel b).length := by
  unfold solution_count_total solList
  rw [helper_total (muB b + 1) b,
    drain_count fuel (initStack boardOps b) (initStack_inv hwf) hfuel,
    initStack_count hwf]
  rfl

/-- A 1x1 board with its single cell still open. -/
def c2Board : Board :=
  { usedDigits := 0,
    solvedDigits := [false],
    grid := [2],
    meta := { size := 1, maxVal := 1,
              rows := [[0]], columns := [[0]], regions := [[0]],
              constraints := [] } }

theorem c2_solution_count_witness :
    solution_count_total c2Board = 1
    ∧ (solList boardOps 5 c2Board).length = 1
    ∧ stackPhi (initStack boardOps c2Board) ≤ 5
    ∧ solution_count_total c2Board = (solList boardOps 5 c2Board).length :=
  ⟨by decide, by decide, by decide,
   c2_solution_count c2Board 5
     (fun k hk => by
       exfalso
       cases k with
       | zero => exact absurd hk (by decide)
       | succ n =>
         rw [getD_of_length_le (by simp [c2Board]) false] at hk
         exact absurd hk (by decide))
     (by decide)⟩
